import Mathlib

/-!
Verification of the test-report comparison tool `get_tests.py`.

Strings are modelled as `List Char`, times as `ℚ`, Python dicts
(insertion-ordered, unique keys) as association lists, and the XML file as the
list of its `test` elements' attribute sets.  Each definition is translated
from the corresponding place in `get_tests.py`; Python builtins used by the
script (`str.lower`, `str.replace`, `str.split`, `str.join`, `list.sort`,
`float(...)`, `int(...)`) are modelled by small Lean functions next to their
first use.
-/

namespace GetTests

/-- Keys and raw names are Python strings, modelled as lists of characters. -/
abbrev Key := List Char

/-- ASCII uppercase/lowercase table: models Python `str.lower` restricted to
ASCII, which is all this script's data uses. -/
def upperLower : List (Char × Char) :=
  [('A', 'a'), ('B', 'b'), ('C', 'c'), ('D', 'd'), ('E', 'e'), ('F', 'f'),
   ('G', 'g'), ('H', 'h'), ('I', 'i'), ('J', 'j'), ('K', 'k'), ('L', 'l'),
   ('M', 'm'), ('N', 'n'), ('O', 'o'), ('P', 'p'), ('Q', 'q'), ('R', 'r'),
   ('S', 's'), ('T', 't'), ('U', 'u'), ('V', 'v'), ('W', 'w'), ('X', 'x'),
   ('Y', 'y'), ('Z', 'z')]

/-- Lowercase one character (model of Python `str.lower`, per character). -/
def pyToLower (c : Char) : Char :=
  match upperLower.find? (fun p => p.1 = c) with
  | some p => p.2
  | none => c

/-- Lowercase a string: `canon_name.lower()` at get_tests.py:45. -/
def toLowerL (s : List Char) : List Char := s.map pyToLower

/-- Model of `name.replace('\\\\', '\\')` (get_tests.py:42): Python `str.replace`
scans left to right, replacing non-overlapping occurrences of two backslashes
by one. -/
def pyReplaceDouble : List Char → List Char
  | [] => []
  | [c] => [c]
  | c1 :: c2 :: rest =>
    if c1 = '\\' ∧ c2 = '\\' then '\\' :: pyReplaceDouble rest
    else c1 :: pyReplaceDouble (c2 :: rest)

/-- Whether a string contains two consecutive backslashes. -/
def hasDoubleBS : List Char → Bool
  | c1 :: c2 :: rest => (decide (c1 = '\\') && decide (c2 = '\\')) || hasDoubleBS (c2 :: rest)
  | _ => false

/-- The extension test `canon_name.endswith('.dll') or canon_name.endswith('.cmd')`
(get_tests.py:43).  Python `str.endswith` is the list-suffix predicate. -/
def hasExeExt (s : List Char) : Bool :=
  decide (['.', 'd', 'l', 'l'] <:+ s) || decide (['.', 'c', 'm', 'd'] <:+ s)

/-- `canon_name[:-4]` guarded by the extension test (get_tests.py:43-44). -/
def stripExt (s : List Char) : List Char :=
  if hasExeExt s then s.take (s.length - 4) else s

/-- The normalization applied to a raw name before the drop filter is checked
(get_tests.py:42-45): unescape doubled separators, strip a trailing
`.dll`/`.cmd`, lowercase. -/
def normalizeName (raw : List Char) : Key :=
  toLowerL (stripExt (pyReplaceDouble raw))

/-- The collapse loop (get_tests.py:49-52): the name is replaced by the first
canonicalization-list entry that occurs in it as a substring (Python
`c in canon_name` is the list-infix predicate). -/
def collapse (canon : List Key) (s : Key) : Key :=
  match canon.find? (fun c => decide (c <:+: s)) with
  | some c => c
  | none => s

/-- The whole canonicalization step of the Report Loader: normalization
followed by the collapse loop. -/
def canonicalizeName (canon : List Key) (raw : List Char) : Key :=
  collapse canon (normalizeName raw)

/-- A configuration profile (one element of `configs`, get_tests.py:83-114). -/
structure Config where
  drop1 : List Key
  drop2 : List Key
  canon : List Key
deriving DecidableEq

/-- First profile (get_tests.py:85-102).  The third `canon` entry is the
non-raw Python literal `'JIT\Regression\CLR-x86-JIT\V2.0-Beta2\b323557'`: the
escapes `\R`, `\C`, `\V` stay as backslash plus letter, while `\b` is the
backspace character U+0008, so the entry keeps its uppercase letters and
contains a backspace where `\b323557` was written. -/
def config0 : Config :=
  { drop1 := ["il_conformance".data]
    drop2 := ["runtime_81018".data, "runtime_81019".data, "runtime_81081".data]
    canon := ["b598031".data, "github_26491".data,
              "JIT\\Regression\\CLR-x86-JIT\\V2.0-Beta2\x08323557".data] }

/-- Second profile (get_tests.py:103-113): everything empty. -/
def config1 : Config :=
  { drop1 := [], drop2 := [], canon := [] }

/-- The hardcoded configuration table (get_tests.py:83-114). -/
def configs : List Config := [config0, config1]

/-- The third canonicalization entry of the first profile (get_tests.py:100),
with the characters the Python literal actually denotes. -/
def canonEntry3 : Key :=
  "JIT\\Regression\\CLR-x86-JIT\\V2.0-Beta2\x08323557".data

/-! Sorting.  Python `list.sort()` on strings orders them lexicographically by
code point; `keyLe` is that (non-strict) order and `sortKeys` a stable
insertion sort implementing `list.sort()`. -/

/-- Lexicographic comparison of keys by code point, Python `s <= t`. -/
def keyLe : List Char → List Char → Bool
  | [], _ => true
  | _ :: _, [] => false
  | a :: as, b :: bs => if a = b then keyLe as bs else decide (a < b)

/-- Strict lexicographic order on keys, Python `s < t`. -/
def keyLt (a b : List Char) : Prop := keyLe a b = true ∧ a ≠ b

/-- Insert a key into an already sorted list. -/
def insertKey (x : Key) : List Key → List Key
  | [] => [x]
  | y :: ys => if keyLe x y then x :: y :: ys else y :: insertKey x ys

/-- Model of Python `list.sort()` on a list of keys. -/
def sortKeys : List Key → List Key
  | [] => []
  | x :: xs => insertKey x (sortKeys xs)

/-! The data model: a Test Group is a Python dict from canonical key to list
of records, modelled as an insertion-ordered association list with distinct
keys. -/

/-- One test record `(name, time)` as appended at get_tests.py:54. -/
structure TestRec where
  name : List Char
  time : ℚ
deriving DecidableEq

/-- A Test Group: insertion-ordered association list modelling the Python
dict `canonical key -> list of records`. -/
abbrev TestGroup := List (Key × List TestRec)

/-- First-match association-list lookup: Python `d[k]` / `d.get(k)`. -/
def alookup {β : Type} : List (Key × β) → Key → Option β
  | [], _ => none
  | kv :: rest, k => if k = kv.1 then some kv.2 else alookup rest k

/-- The key list of a dict, in insertion order: Python `d.keys()`. -/
def keysOf {β : Type} (d : List (Key × β)) : List Key := d.map Prod.fst

/-- `d[k]` where the key is known present, or `[]`: used to model reads the
script performs only on present keys. -/
def lookupList (d : TestGroup) (k : Key) : List TestRec :=
  (alookup d k).getD []

/-- `add_dict_list_item` (get_tests.py:20-22): `d.setdefault(k, []).append(v)`.
An existing key keeps its position and has `v` appended; a new key goes to the
end with a one-element list. -/
def add_dict_list_item (d : TestGroup) (k : Key) (v : TestRec) : TestGroup :=
  match d with
  | [] => [(k, [v])]
  | kv :: rest =>
    if k = kv.1 then (kv.1, kv.2 ++ [v]) :: rest
    else kv :: add_dict_list_item rest k v

/-- `add_dict_list_list` (get_tests.py:24-26): `d.setdefault(k, []).extend(v)`. -/
def add_dict_list_list (d : TestGroup) (k : Key) (v : List TestRec) : TestGroup :=
  match d with
  | [] => [(k, v)]
  | kv :: rest =>
    if k = kv.1 then (kv.1, kv.2 ++ v) :: rest
    else kv :: add_dict_list_list rest k v

/-- `update_dict_list` (get_tests.py:28-30): merge `d2` into `d1`, extending
key by key in `d2`'s iteration order. -/
def update_dict_list (d1 d2 : TestGroup) : TestGroup :=
  d2.foldl (fun d kv => add_dict_list_list d kv.1 kv.2) d1

/-! The Report Loader (get_tests.py:32-56).  The parsed XML file is modelled
by the list of its `test` elements, each carrying its attribute dict. -/

/-- A `test` element of the report file: its attribute mapping. -/
structure XmlTest where
  attrib : List (List Char × List Char)
deriving DecidableEq

/-- Attribute lookup, Python `attrib['name']` (first match). -/
def getAttr (t : XmlTest) (k : List Char) : Option (List Char) :=
  (t.attrib.find? (fun p => p.1 = k)).map Prod.snd

/-- The ways a record can be malformed (spec section 7, MalformedRecordError):
Python raises `KeyError` on a missing attribute and `ValueError` on a
non-numeric `time`. -/
inductive LoadError where
  | missingName : LoadError
  | missingTime : LoadError
  | badTime : List Char → LoadError
deriving DecidableEq

instance {ε α : Type} [DecidableEq ε] [DecidableEq α] : DecidableEq (Except ε α)
  | .error x, .error y =>
    if h : x = y then .isTrue (congrArg Except.error h)
    else .isFalse (fun hh => h (Except.error.inj hh))
  | .error _, .ok _ => .isFalse (fun hh => Except.noConfusion hh)
  | .ok _, .error _ => .isFalse (fun hh => Except.noConfusion hh)
  | .ok x, .ok y =>
    if h : x = y then .isTrue (congrArg Except.ok h)
    else .isFalse (fun hh => h (Except.ok.inj hh))

/-- All-digit string to a natural number. -/
def digitsToNat (s : List Char) : ℕ :=
  s.foldl (fun n c => 10 * n + (c.toNat - ('0').toNat)) 0

/-- Model of the Python builtin `float(...)` (get_tests.py:53) restricted to
the plain decimal literals test reports contain: optional minus sign, an
integer part, and an optional fractional part, at least one digit in all.
Anything else (in particular a non-numeric string) fails. -/
def parseFloat (s : List Char) : Option ℚ :=
  let core : List Char → Option ℚ := fun t =>
    match t.splitOn '.' with
    | [ip] => if ip ≠ [] ∧ ip.all Char.isDigit then some (digitsToNat ip : ℚ) else none
    | [ip, fp] =>
      if (ip ≠ [] ∨ fp ≠ []) ∧ ip.all Char.isDigit ∧ fp.all Char.isDigit then
        some ((digitsToNat ip : ℚ) + (digitsToNat fp : ℚ) / (10 ^ fp.length : ℚ))
      else none
    | _ => none
  match s with
  | '-' :: t => (core t).map (fun q => -q)
  | t => core t

/-- Attribute name `name`. -/
def nameAttr : List Char := "name".data

/-- Attribute name `time`. -/
def timeAttr : List Char := "time".data

/-- Processing of one `test` element (body of the loop, get_tests.py:36-54):
read `name` (KeyError if absent), normalize, drop-filter using the normalized
name, collapse, then compute the time: `0 if zero else float(attrib['time'])`,
so with the zero flag set the `time` attribute is never read. -/
def loadStep (drop canon : List Key) (zero : Bool) (acc : TestGroup) (t : XmlTest) :
    Except LoadError TestGroup :=
  match getAttr t nameAttr with
  | none => .error .missingName
  | some name =>
    let cn := normalizeName name
    if drop.any (fun d => decide (d <:+: cn)) then .ok acc
    else
      let ck := collapse canon cn
      if zero then .ok (add_dict_list_item acc ck ⟨name, 0⟩)
      else
        match getAttr t timeAttr with
        | none => .error .missingTime
        | some s =>
          match parseFloat s with
          | none => .error (.badTime s)
          | some q => .ok (add_dict_list_item acc ck ⟨name, q⟩)

/-- The loader's loop over all `test` elements, threading the accumulated
group and stopping at the first malformed record. -/
def loadAux (drop canon : List Key) (zero : Bool) :
    TestGroup → List XmlTest → Except LoadError TestGroup
  | acc, [] => .ok acc
  | acc, t :: ts =>
    match loadStep drop canon zero acc t with
    | .ok acc2 => loadAux drop canon zero acc2 ts
    | .error e => .error e

/-- `load` (get_tests.py:32-56): build a Test Group from the `test` elements
of one report file. -/
def load (tests : List XmlTest) (drop canon : List Key) (zero : Bool) :
    Except LoadError TestGroup :=
  loadAux drop canon zero [] tests

/-! The Presence/Cardinality Differ (get_tests.py:58-69) and the Timing
Differ (get_tests.py:71-80).  Each printed line is modelled as a `Finding`
carrying the data interpolated into the f-string. -/

/-- One printed line of `print_diff` / `print_time_diff`. -/
inductive Finding where
  | onlyIn : String → Key → Finding
  | moreIn : String → Key → ℕ → ℕ → Finding
  | slowerIn : String → Key → ℚ → ℚ → Finding
deriving DecidableEq

/-- The key a finding is about. -/
def Finding.key : Finding → Key
  | .onlyIn _ k => k
  | .moreIn _ k _ _ => k
  | .slowerIn _ k _ _ => k

/-- Render a finding to the exact text printed (get_tests.py:64 and 69);
`len(v1)` comes first in the `more in` line. -/
def renderFinding : Finding → String
  | .onlyIn label k => "only in " ++ label ++ ": " ++ String.mk k
  | .moreIn label k c1 c2 =>
      "more in " ++ label ++ ": " ++ String.mk k ++ " (" ++ toString c1 ++
        " > " ++ toString c2 ++ ")"
  | .slowerIn label k _ _ => "slower in " ++ label ++ ": " ++ String.mk k

/-- The line `print_diff` prints for one key of `tests1` (get_tests.py:62-69):
`only in` when the key is absent from `tests2`, `more in` when `tests1` has
strictly more records, nothing otherwise. -/
def diffLine (tests1 tests2 : TestGroup) (label : String) (k : Key) :
    Option Finding :=
  match alookup tests2 k with
  | none => some (.onlyIn label k)
  | some v2 =>
    if (lookupList tests1 k).length > v2.length then
      some (.moreIn label k (lookupList tests1 k).length v2.length)
    else none

/-- `print_diff` (get_tests.py:58-69): iterate the sorted keys of `tests1`
and print each key's line. -/
def print_diff (tests1 tests2 : TestGroup) (label : String) : List Finding :=
  (sortKeys (keysOf tests1)).filterMap (diffLine tests1 tests2 label)

/-- Python float values reachable in `print_time_diff`: a finite value or
`float('inf')`. -/
inductive PyFloat where
  | fin : ℚ → PyFloat
  | inf : PyFloat
deriving DecidableEq

/-- Python `<` on those float values: `inf` is above every finite value. -/
def pyFloatLt : PyFloat → PyFloat → Bool
  | .fin x, .fin y => decide (x < y)
  | .fin _, .inf => true
  | .inf, _ => false

/-- `sum(p[1] for p in tests[k])` (get_tests.py:76-77). -/
def sumTimes (tests : TestGroup) (k : Key) : ℚ :=
  ((lookupList tests k).map TestRec.time).sum

/-- `float('inf') if v2 == 0 else v1/v2` (get_tests.py:78). -/
def pyRatio (v1 v2 : ℚ) : PyFloat :=
  if v2 = 0 then .inf else .fin (v1 / v2)

/-- The line `print_time_diff` prints for one shared key (get_tests.py:75-80):
flag the key when `v1 - v2 > time_abs or ratio > time_ratio`. -/
def timeLine (tests1 tests2 : TestGroup) (label : String)
    (time_abs time_ratio : ℚ) (k : Key) : Option Finding :=
  if decide (sumTimes tests1 k - sumTimes tests2 k > time_abs) ||
      pyFloatLt (.fin time_ratio) (pyRatio (sumTimes tests1 k) (sumTimes tests2 k)) then
    some (.slowerIn label k (sumTimes tests1 k) (sumTimes tests2 k))
  else none

/-- `print_time_diff` (get_tests.py:71-80): over the sorted intersection of
the key sets, print each flagged key's line. -/
def print_time_diff (tests1 tests2 : TestGroup) (label : String)
    (time_abs time_ratio : ℚ) : List Finding :=
  (sortKeys ((keysOf tests1).filter (fun k => decide (k ∈ keysOf tests2)))).filterMap
    (timeLine tests1 tests2 label time_abs time_ratio)

/-! The Directory Grouper and Grouped Differ (get_tests.py:116-152). -/

/-- Split a key at single backslashes: Python `test_name.split("\\")`. -/
def splitBS : List Char → List (List Char)
  | [] => [[]]
  | c :: rest =>
    if c = '\\' then [] :: splitBS rest
    else
      match splitBS rest with
      | [] => [[c]]
      | p :: ps => (c :: p) :: ps

/-- Join path segments with backslashes: Python `"\\".join(parts)`. -/
def joinBS : List (List Char) → List Char
  | [] => []
  | [p] => p
  | p :: ps => p ++ '\\' :: joinBS ps

/-- `"\\".join(test_name.split("\\")[:-2])` (get_tests.py:119): the key's
path minus its last two segments. -/
def dirOf (k : Key) : Key :=
  joinBS ((splitBS k).take ((splitBS k).length - 2))

/-- `"\\".join(test_name.split("\\")[-2:])` (get_tests.py:142): the key's
last two path segments. -/
def shortOf (k : Key) : Key :=
  joinBS ((splitBS k).drop ((splitBS k).length - 2))

/-- Python dict assignment `d[k] = v`: overwrite in place, or append a new
key at the end. -/
def dictSet {β : Type} : List (Key × β) → Key → β → List (Key × β)
  | [], k, v => [(k, v)]
  | kv :: rest, k, v =>
    if k = kv.1 then (kv.1, v) :: rest else kv :: dictSet rest k v

/-- One iteration of `group_test_by_directory`'s loop (get_tests.py:118-122). -/
def groupStep (acc : List (Key × TestGroup)) (kv : Key × List TestRec) :
    List (Key × TestGroup) :=
  let d := dirOf kv.1
  let m := (alookup acc d).getD []
  dictSet acc d (dictSet m kv.1 kv.2)

/-- `group_test_by_directory` (get_tests.py:116-123): partition a Test Group
by the directory of each key. -/
def group_test_by_directory (tests : TestGroup) : List (Key × TestGroup) :=
  tests.foldl groupStep []

/-- One printed line inside a directory block (get_tests.py:141-152). -/
inductive GroupLine where
  | onlyIn1 : Key → GroupLine
  | onlyIn2 : Key → GroupLine
  | moreIn1 : Key → ℕ → ℕ → GroupLine
  | moreIn2 : Key → ℕ → ℕ → GroupLine
deriving DecidableEq

/-- The short name a grouped line shows. -/
def GroupLine.short : GroupLine → Key
  | .onlyIn1 s => s
  | .onlyIn2 s => s
  | .moreIn1 s _ _ => s
  | .moreIn2 s _ _ => s

/-- The annotation printed for one key of a directory block
(get_tests.py:143-152), reading the key in two (sub)groups: `Only in 1/2` for
one-sided keys, `More in 1/2` (larger count first) for unequal counts, and
nothing for equal counts. -/
def blockLine (m1 m2 : TestGroup) (k : Key) : Option GroupLine :=
  match alookup m1 k, alookup m2 k with
  | some v1, some v2 =>
    if v1.length > v2.length then some (.moreIn1 (shortOf k) v1.length v2.length)
    else if v1.length < v2.length then some (.moreIn2 (shortOf k) v2.length v1.length)
    else none
  | some _, none => some (.onlyIn1 (shortOf k))
  | none, some _ => some (.onlyIn2 (shortOf k))
  | none, none => none

/-- The mismatch test of the block-emission scan (get_tests.py:135): true
unless the key is in both subgroups with equal counts. -/
def mismatchB (m1 m2 : TestGroup) (k : Key) : Bool :=
  !(decide (k ∈ keysOf m1) && decide (k ∈ keysOf m2) &&
    decide ((lookupList m1 k).length = (lookupList m2 k).length))

/-- One emitted directory block: the `Directory ...` header plus its lines. -/
structure Block where
  dir : Key
  lines : List GroupLine
deriving DecidableEq

/-- The sorted distinct keys of a directory pair:
`list(tests.keys() | tests2.keys()); .sort()` (get_tests.py:131-132). -/
def unionKeys (m1 m2 : TestGroup) : List Key :=
  sortKeys (keysOf m1 ++ (keysOf m2).filter (fun k => decide (k ∉ keysOf m1)))

/-- `print_grouped_by_dir` (get_tests.py:125-152): for each directory of the
FIRST group's partition, look up the second group's subgroup for it, and emit
a block when some distinct key fails the equal-count test. -/
def print_grouped_by_dir (tests1 tests2 : TestGroup) : List Block :=
  let g1 := group_test_by_directory tests1
  let g2 := group_test_by_directory tests2
  g1.filterMap fun dm =>
    let m2 := (alookup g2 dm.1).getD []
    let allKeys := unionKeys dm.2 m2
    if allKeys.any (fun k => mismatchB dm.2 m2 k) then
      some ⟨dm.1, allKeys.filterMap (blockLine dm.2 m2)⟩
    else none

/-! The CLI option model (get_tests.py:154-195): just enough of the argparse
declarations to state what converter and default each timing option has. -/

/-- The Python callable an argparse option applies to its argument string. -/
inductive PyConv where
  | toInt : PyConv
  | toFloat : PyConv
deriving DecidableEq

/-- One argparse option declaration with a `type` and a `default`. -/
structure ArgSpec where
  flag : String
  conv : PyConv
  dflt : ℚ
deriving DecidableEq

/-- The `--time-abs` declaration (get_tests.py:173-178): `type=int, default=3`. -/
def time_abs_arg : ArgSpec := ⟨"--time-abs", .toInt, 3⟩

/-- The `--time-ratio` declaration (get_tests.py:179-184):
`type=float, default=1.5`. -/
def time_ratio_arg : ArgSpec := ⟨"--time-ratio", .toFloat, 3 / 2⟩

/-- Model of the Python builtin `int(...)` on strings: optional minus sign and
decimal digits only; in particular any string with a decimal point fails. -/
def pyIntConv (s : List Char) : Option ℤ :=
  match s with
  | '-' :: t =>
    if t ≠ [] ∧ t.all Char.isDigit then some (-(digitsToNat t : ℤ)) else none
  | t =>
    if t ≠ [] ∧ t.all Char.isDigit then some (digitsToNat t : ℤ) else none

/-- Apply an option's declared converter to an argument string. -/
def convertArg (a : ArgSpec) (s : List Char) : Option ℚ :=
  match a.conv with
  | .toInt => (pyIntConv s).map (fun n => (n : ℚ))
  | .toFloat => parseFloat s

/-! Derived notions used to state the claims, and concrete inputs for
witnesses and counterexamples. -/

/-- Render a list of findings to the printed lines. -/
def renderFindings (l : List Finding) : List String := l.map renderFinding

/-- A key has a presence or cardinality mismatch between two groups when it is
not present in both with equal record counts. -/
def mismatchP (g1 g2 : TestGroup) (k : Key) : Prop :=
  ¬ (k ∈ keysOf g1 ∧ k ∈ keysOf g2 ∧
      (lookupList g1 k).length = (lookupList g2 k).length)

instance (g1 g2 : TestGroup) (k : Key) : Decidable (mismatchP g1 g2 k) := by
  unfold mismatchP; infer_instance

/-- The keys of a group lying under one directory, in insertion order. -/
def keysUnder (g : TestGroup) (d : Key) : List Key :=
  (keysOf g).filter (fun k => decide (dirOf k = d))

/-- The distinct keys under a directory in either group (group 1's first,
then group 2's new ones), before sorting. -/
def unionKeysUnder (g1 g2 : TestGroup) (d : Key) : List Key :=
  keysUnder g1 d ++ (keysUnder g2 d).filter (fun k => decide (k ∉ keysOf g1))

/-- The entries of a group lying under one directory, in insertion order. -/
def dirEntries (g : TestGroup) (d : Key) : TestGroup :=
  g.filter (fun kv => decide (dirOf kv.1 = d))

/-- Build a `test` element with a `name` and a `time` attribute. -/
def xmlT (n t : String) : XmlTest := ⟨[(nameAttr, n.data), (timeAttr, t.data)]⟩

/-- A `test` element with no `name` attribute. -/
def xmlNoName : XmlTest := ⟨[(timeAttr, "1.0".data)]⟩

/-- A `test` element with a `name` but no `time` attribute. -/
def xmlNoTime : XmlTest := ⟨[(nameAttr, "x".data)]⟩

/-- A `test` element whose `time` is not numeric. -/
def xmlBadTime : XmlTest := ⟨[(nameAttr, "y".data), (timeAttr, "fast".data)]⟩

/-- A throwaway record for building concrete groups. -/
def rec0 : TestRec := ⟨"r".data, 0⟩

/-- The scenario key `a\x\t1` of spec section 8. -/
def scenKey : Key := "a\\x\\t1".data

/-- Report 1 of the scenario: one record whose name canonicalizes to
`a\x\t1`, time 1.0. -/
def scenTests1 : List XmlTest := [xmlT "a\\\\x\\\\t1.dll" "1.0"]

/-- Report 2 of the scenario: two records canonicalizing to `a\x\t1`,
times 0.5 and 0.6. -/
def scenTests2 : List XmlTest :=
  [xmlT "a\\\\x\\\\t1.cmd" "0.5", xmlT "a\\\\x\\\\t1.dll" "0.6"]

/-- The scenario's group 1 (what `load scenTests1 [] [] false` returns). -/
def scenG1 : TestGroup := [(scenKey, [⟨"a\\\\x\\\\t1.dll".data, 1⟩])]

/-- The scenario's group 2 (what `load scenTests2 [] [] false` returns). -/
def scenG2 : TestGroup :=
  [(scenKey, [⟨"a\\\\x\\\\t1.cmd".data, 1 / 2⟩, ⟨"a\\\\x\\\\t1.dll".data, 3 / 5⟩])]

/-- Concrete group 1 for the grouped-differ counterexample: two keys whose
directory is the empty string, whose full-key sort order differs from their
short-name sort order. -/
def cexG1 : TestGroup := [("\\x\\y".data, [rec0]), ("ab".data, [rec0])]

/-- Concrete group 2 for the grouped-differ counterexample: one key under
directory `a`, a directory group 1 does not have. -/
def cexG2 : TestGroup := [("a\\x\\t1".data, [rec0])]

/-- Input for the drop-filter witness: one dropped record, one kept. -/
def w1Tests : List XmlTest :=
  [xmlT "il_conformance_foo" "1", xmlT "other" "2"]

/-- Base group for the merge witness. -/
def w8g1 : TestGroup := [("a".data, [rec0])]

/-- New group for the merge witness. -/
def w8g2 : TestGroup := [("a".data, [rec0, rec0]), ("b".data, [rec0])]

/-- Group 1 for the timing-ratio witness: key `k` with total time 1. -/
def w6g1 : TestGroup := [("k".data, [⟨"k".data, 1⟩])]

/-- Group 2 for the timing-ratio witness: key `k` with total time 0. -/
def w6g2 : TestGroup := [("k".data, [⟨"k".data, 0⟩])]

/-! Lemmas about the character and ordering models. -/

theorem pyToLower_found {c : Char} {p : Char × Char}
    (h : upperLower.find? (fun p => p.1 = c) = some p) : pyToLower c = p.2 := by
  unfold pyToLower
  rw [h]

theorem pyToLower_not_found {c : Char}
    (h : upperLower.find? (fun p => p.1 = c) = none) : pyToLower c = c := by
  unfold pyToLower
  rw [h]

theorem pyToLower_pyToLower (c : Char) : pyToLower (pyToLower c) = pyToLower c := by
  have hall : ∀ p ∈ upperLower, upperLower.find? (fun q => q.1 = p.2) = none := by decide
  cases h : upperLower.find? (fun p => p.1 = c) with
  | some p =>
    rw [pyToLower_found h]
    exact pyToLower_not_found (hall p (List.mem_of_find?_eq_some h))
  | none =>
    rw [pyToLower_not_found h]
    rw [pyToLower_not_found h]

theorem pyToLower_ne_J (c : Char) : pyToLower c ≠ 'J' := by
  cases h : upperLower.find? (fun p => p.1 = c) with
  | some p =>
    rw [pyToLower_found h]
    have hp := List.mem_of_find?_eq_some h
    have : ∀ q ∈ upperLower, q.2 ≠ 'J' := by decide
    exact this p hp
  | none =>
    rw [pyToLower_not_found h]
    intro hc
    subst hc
    have := List.find?_eq_none.mp h ('J', 'j') (by decide)
    simp at this

theorem toLowerL_idem (s : List Char) : toLowerL (toLowerL s) = toLowerL s := by
  unfold toLowerL
  rw [List.map_map]
  exact List.map_congr_left fun c _ => pyToLower_pyToLower c

theorem not_J_mem_toLowerL (s : List Char) : 'J' ∉ toLowerL s := by
  intro h
  rcases List.mem_map.mp h with ⟨c, _, hc⟩
  exact pyToLower_ne_J c hc

theorem pyReplaceDouble_eq_self :
    ∀ s : List Char, hasDoubleBS s = false → pyReplaceDouble s = s := by
  intro s
  induction s with
  | nil => intro _; rfl
  | cons c rest ih =>
    intro h
    cases rest with
    | nil => rfl
    | cons c2 r2 =>
      have h' : ¬(c = '\\' ∧ c2 = '\\') ∧ hasDoubleBS (c2 :: r2) = false := by
        simp only [hasDoubleBS, Bool.or_eq_false_iff, Bool.and_eq_false_iff,
          decide_eq_false_iff_not] at h
        constructor
        · intro hc
          rcases h.1 with h1 | h1
          · exact h1 hc.1
          · exact h1 hc.2
        · exact h.2
      rw [pyReplaceDouble, if_neg h'.1, ih h'.2]

theorem stripExt_eq_self {s : List Char} (h : hasExeExt s = false) :
    stripExt s = s := by
  unfold stripExt
  rw [h]
  simp

/-! Lemmas about the lexicographic order and `sortKeys`. -/

theorem keyLe_refl (a : List Char) : keyLe a a = true := by
  induction a with
  | nil => rfl
  | cons c r ih => simp [keyLe, ih]

theorem keyLe_total (a b : List Char) : keyLe a b = true ∨ keyLe b a = true := by
  induction a generalizing b with
  | nil => left; rfl
  | cons x xs ih =>
    cases b with
    | nil => right; rfl
    | cons y ys =>
      by_cases hxy : x = y
      · subst hxy
        simpa [keyLe] using ih ys
      · rcases lt_trichotomy x y with h | h | h
        · left; simp [keyLe, hxy, h]
        · exact absurd h hxy
        · right; simp [keyLe, Ne.symm hxy, h]

theorem keyLe_trans {a b c : List Char} (h1 : keyLe a b = true)
    (h2 : keyLe b c = true) : keyLe a c = true := by
  induction a generalizing b c with
  | nil => rfl
  | cons x xs ih =>
    cases b with
    | nil => simp [keyLe] at h1
    | cons y ys =>
      cases c with
      | nil => simp [keyLe] at h2
      | cons z zs =>
        by_cases hxy : x = y <;> by_cases hyz : y = z
        · subst hxy; subst hyz
          simp only [keyLe, if_pos rfl] at h1 h2 ⊢
          exact ih h1 h2
        · subst hxy
          simp only [keyLe, if_pos rfl, if_neg hyz, decide_eq_true_eq] at h2 ⊢
          exact h2
        · subst hyz
          simp only [keyLe, if_neg hxy, decide_eq_true_eq] at h1
          rw [keyLe, if_neg hxy]
          simpa using h1
        · simp only [keyLe, if_neg hxy, if_neg hyz, decide_eq_true_eq] at h1 h2
          have hxz : x < z := lt_trans h1 h2
          rw [keyLe, if_neg (ne_of_lt hxz)]
          simpa using hxz

theorem keyLe_antisymm {a b : List Char} (h1 : keyLe a b = true)
    (h2 : keyLe b a = true) : a = b := by
  induction a generalizing b with
  | nil =>
    cases b with
    | nil => rfl
    | cons y ys => simp [keyLe] at h2
  | cons x xs ih =>
    cases b with
    | nil => simp [keyLe] at h1
    | cons y ys =>
      by_cases hxy : x = y
      · subst hxy
        simp only [keyLe, if_pos rfl] at h1 h2
        rw [ih h1 h2]
      · simp only [keyLe, if_neg hxy, decide_eq_true_eq] at h1
        simp only [keyLe, if_neg (Ne.symm hxy), decide_eq_true_eq] at h2
        exact absurd (lt_trans h1 h2) (lt_irrefl x)

theorem keyLe_append (p a b : List Char) :
    keyLe (p ++ a) (p ++ b) = keyLe a b := by
  induction p with
  | nil => rfl
  | cons c r ih => simp [keyLe, ih]

theorem mem_insertKey {x y : Key} {l : List Key} :
    y ∈ insertKey x l ↔ y = x ∨ y ∈ l := by
  induction l with
  | nil => simp [insertKey]
  | cons z zs ih =>
    rw [insertKey]
    split
    · simp
    · simp only [List.mem_cons, ih]
      tauto

theorem perm_insertKey (x : Key) (l : List Key) :
    List.Perm (insertKey x l) (x :: l) := by
  induction l with
  | nil => rfl
  | cons z zs ih =>
    rw [insertKey]
    split
    · rfl
    · exact (ih.cons z).trans (List.Perm.swap x z zs)

theorem pairwise_insertKey {x : Key} {l : List Key}
    (h : l.Pairwise (fun a b => keyLe a b = true)) :
    (insertKey x l).Pairwise (fun a b => keyLe a b = true) := by
  induction l with
  | nil => simp [insertKey]
  | cons z zs ih =>
    rw [List.pairwise_cons] at h
    rw [insertKey]
    split
    · rename_i hxz
      rw [List.pairwise_cons]
      refine ⟨?_, List.pairwise_cons.mpr h⟩
      intro b hb
      rcases List.mem_cons.mp hb with hb | hb
      · subst hb; exact hxz
      · exact keyLe_trans hxz (h.1 b hb)
    · rename_i hxz
      rw [List.pairwise_cons]
      refine ⟨?_, ih h.2⟩
      intro b hb
      rcases mem_insertKey.mp hb with hb | hb
      · rw [hb]
        rcases keyLe_total z x with hzx | hzx
        · exact hzx
        · exact absurd hzx hxz
      · exact h.1 b hb

theorem sortKeys_perm (l : List Key) : List.Perm (sortKeys l) l := by
  induction l with
  | nil => rfl
  | cons x xs ih => exact (perm_insertKey x (sortKeys xs)).trans (ih.cons x)

theorem mem_sortKeys {y : Key} {l : List Key} : y ∈ sortKeys l ↔ y ∈ l :=
  (sortKeys_perm l).mem_iff

theorem sortKeys_pairwise (l : List Key) :
    (sortKeys l).Pairwise (fun a b => keyLe a b = true) := by
  induction l with
  | nil => exact List.Pairwise.nil
  | cons x xs ih => exact pairwise_insertKey ih

theorem sortKeys_pairwise_lt {l : List Key} (h : l.Nodup) :
    (sortKeys l).Pairwise keyLt := by
  have hnd : (sortKeys l).Nodup := ((sortKeys_perm l).nodup_iff).mpr h
  have := (sortKeys_pairwise l).and hnd
  exact this.imp fun hab => ⟨hab.1, hab.2⟩

/-! Lemmas about the association-list model of Python dicts. -/

theorem keysOf_cons {β : Type} (kv : Key × β) (rest : List (Key × β)) :
    keysOf (kv :: rest) = kv.1 :: keysOf rest := rfl

theorem alookup_cons {β : Type} (kv : Key × β) (rest : List (Key × β)) (k : Key) :
    alookup (kv :: rest) k = if k = kv.1 then some kv.2 else alookup rest k := rfl

theorem alookup_eq_none {β : Type} {d : List (Key × β)} {k : Key} :
    alookup d k = none ↔ k ∉ keysOf d := by
  induction d with
  | nil => simp [alookup, keysOf]
  | cons kv rest ih =>
    rw [alookup_cons, keysOf_cons, List.mem_cons]
    by_cases hk : k = kv.1
    · simp [hk]
    · simp [hk, ih]

theorem mem_keysOf_iff {β : Type} {d : List (Key × β)} {k : Key} :
    k ∈ keysOf d ↔ (alookup d k).isSome = true := by
  constructor
  · intro hmem
    cases h : alookup d k with
    | some v => rfl
    | none => exact absurd hmem (alookup_eq_none.mp h)
  · intro hs
    by_contra hmem
    rw [alookup_eq_none.mpr hmem] at hs
    exact Bool.noConfusion hs

theorem lookupList_of_not_mem {d : TestGroup} {k : Key} (h : k ∉ keysOf d) :
    lookupList d k = [] := by
  rw [lookupList, alookup_eq_none.mpr h]
  rfl

theorem alookup_add_list (d : TestGroup) (k k' : Key) (vs : List TestRec) :
    alookup (add_dict_list_list d k vs) k' =
      if k' = k then some (lookupList d k ++ vs) else alookup d k' := by
  induction d with
  | nil =>
    by_cases h : k' = k <;>
      simp [add_dict_list_list, alookup, lookupList, h]
  | cons kv rest ih =>
    rw [add_dict_list_list]
    by_cases h1 : k = kv.1
    · rw [if_pos h1]
      by_cases h2 : k' = k
      · simp [alookup, lookupList, h2, h1]
      · have h3 : k' ≠ kv.1 := by rw [← h1]; exact h2
        simp [alookup, h2, h3]
    · rw [if_neg h1]
      have h5 : kv.1 ≠ k := fun hh => h1 hh.symm
      by_cases h2 : k' = kv.1
      · have h3 : k' ≠ k := by rw [h2]; exact h5
        rw [alookup_cons, alookup_cons, if_pos h2, if_neg h3, if_pos h2]
      · rw [alookup_cons, alookup_cons, if_neg h2, if_neg h2, ih]
        by_cases h3 : k' = k
        · have h4 : lookupList (kv :: rest) k = lookupList rest k := by
            rw [lookupList, lookupList, alookup_cons, if_neg h5.symm]
          rw [if_pos h3, if_pos h3, h4]
        · rw [if_neg h3, if_neg h3]

theorem alookup_add_item (d : TestGroup) (k k' : Key) (v : TestRec) :
    alookup (add_dict_list_item d k v) k' =
      if k' = k then some (lookupList d k ++ [v]) else alookup d k' := by
  have : add_dict_list_item d k v = add_dict_list_list d k [v] := by
    induction d with
    | nil => rfl
    | cons kv rest ih =>
      rw [add_dict_list_item, add_dict_list_list]
      by_cases h : k = kv.1
      · rw [if_pos h, if_pos h]
      · rw [if_neg h, if_neg h, ih]
  rw [this, alookup_add_list]

theorem mem_keysOf_add_item {d : TestGroup} {k k' : Key} {v : TestRec} :
    k' ∈ keysOf (add_dict_list_item d k v) ↔ k' ∈ keysOf d ∨ k' = k := by
  rw [mem_keysOf_iff, alookup_add_item]
  by_cases h : k' = k
  · simp [h]
  · simp [h, mem_keysOf_iff]

theorem lookupList_update (d1 d2 : TestGroup) (h : (keysOf d2).Nodup) (k : Key) :
    lookupList (update_dict_list d1 d2) k = lookupList d1 k ++ lookupList d2 k := by
  induction d2 generalizing d1 with
  | nil => simp [update_dict_list, lookupList, alookup]
  | cons kv rest ih =>
    have hstep : update_dict_list d1 (kv :: rest) =
        update_dict_list (add_dict_list_list d1 kv.1 kv.2) rest := rfl
    have h' : (kv.1 :: keysOf rest).Nodup := by rw [← keysOf_cons]; exact h
    have hcons := List.nodup_cons.mp h'
    rw [hstep, ih _ hcons.2]
    by_cases hk : k = kv.1
    · subst hk
      have hrest : lookupList rest kv.1 = [] := lookupList_of_not_mem hcons.1
      simp [lookupList, alookup_add_list, alookup_cons, hrest]
      exact hrest
    · simp [lookupList, alookup_add_list, alookup_cons, hk]

/-! Lemmas about the Report Loader. -/

theorem collapse_self_or_infix (canon : List Key) (s : Key) :
    collapse canon s = s ∨ (collapse canon s) <:+: s := by
  cases h : canon.find? (fun c => decide (c <:+: s)) with
  | none =>
    left
    unfold collapse
    rw [h]
  | some c =>
    right
    have h1 := List.find?_some h
    have hc : c <:+: s := by simpa using h1
    have h2 : collapse canon s = c := by
      unfold collapse
      rw [h]
    rw [h2]
    exact hc

theorem loadStep_ok_keys {drop canon : List Key} {zero : Bool}
    {acc acc2 : TestGroup} {t : XmlTest}
    (hstep : loadStep drop canon zero acc t = .ok acc2) :
    ∀ k ∈ keysOf acc2, k ∈ keysOf acc ∨
      ∃ name, getAttr t nameAttr = some name ∧
        drop.any (fun d => decide (d <:+: normalizeName name)) = false ∧
        k = collapse canon (normalizeName name) := by
  cases hname : getAttr t nameAttr with
  | none =>
    simp only [loadStep, hname] at hstep
    exact Except.noConfusion hstep
  | some name =>
    simp only [loadStep, hname] at hstep
    by_cases hdrop : drop.any (fun d => decide (d <:+: normalizeName name)) = true
    · rw [if_pos hdrop] at hstep
      cases hstep
      intro k hk
      exact Or.inl hk
    · rw [if_neg hdrop] at hstep
      have hdropf : drop.any (fun d => decide (d <:+: normalizeName name)) = false :=
        Bool.eq_false_iff.mpr hdrop
      have hadd : ∀ v, acc2 = add_dict_list_item acc (collapse canon (normalizeName name)) v →
          ∀ k ∈ keysOf acc2, k ∈ keysOf acc ∨
            ∃ nm, (some name : Option (List Char)) = some nm ∧
              drop.any (fun d => decide (d <:+: normalizeName nm)) = false ∧
              k = collapse canon (normalizeName nm) := by
        intro v hv k hk
        rw [hv] at hk
        rcases mem_keysOf_add_item.mp hk with hk | hk
        · exact Or.inl hk
        · exact Or.inr ⟨name, rfl, hdropf, hk⟩
      cases zero with
      | true =>
        rw [if_pos rfl] at hstep
        cases hstep
        exact hadd ⟨name, 0⟩ rfl
      | false =>
        rw [if_neg (by simp)] at hstep
        cases htime : getAttr t timeAttr with
        | none =>
          simp only [htime] at hstep
          exact Except.noConfusion hstep
        | some s =>
          simp only [htime] at hstep
          cases hq : parseFloat s with
          | none =>
            simp only [hq] at hstep
            exact Except.noConfusion hstep
          | some q =>
            simp only [hq] at hstep
            cases hstep
            exact hadd ⟨name, q⟩ rfl

theorem loadAux_keys_not_dropped (drop canon : List Key) (zero : Bool) :
    ∀ (ts : List XmlTest) (acc g : TestGroup),
      (∀ k ∈ keysOf acc, ∀ d ∈ drop, ¬ d <:+: k) →
      loadAux drop canon zero acc ts = .ok g →
      ∀ k ∈ keysOf g, ∀ d ∈ drop, ¬ d <:+: k := by
  intro ts
  induction ts with
  | nil =>
    intro acc g hacc hload
    cases hload
    exact hacc
  | cons t ts ih =>
    intro acc g hacc hload
    rw [loadAux] at hload
    cases hstep : loadStep drop canon zero acc t with
    | error e => rw [hstep] at hload; exact Except.noConfusion hload
    | ok acc2 =>
      rw [hstep] at hload
      refine ih acc2 g ?_ hload
      intro k hk d hd hinf
      rcases loadStep_ok_keys hstep k hk with hmem | ⟨name, _, hdropf, hkeq⟩
      · exact hacc k hmem d hd hinf
      · have hnotdrop := List.any_eq_false.mp hdropf d hd
        rw [decide_eq_true_eq] at hnotdrop
        rcases collapse_self_or_infix canon (normalizeName name) with hc | hc
        · rw [hkeq, hc] at hinf
          exact hnotdrop hinf
        · rw [hkeq] at hinf
          exact hnotdrop (hinf.trans hc)

theorem loadAux_not_ok_of_missing_name (drop canon : List Key) (zero : Bool) :
    ∀ (ts : List XmlTest) (acc : TestGroup),
      (∃ t ∈ ts, getAttr t nameAttr = none) →
      (loadAux drop canon zero acc ts).isOk = false := by
  intro ts
  induction ts with
  | nil =>
    intro acc h
    rcases h with ⟨t, ht, _⟩
    exact absurd ht (List.not_mem_nil t)
  | cons t0 ts ih =>
    intro acc h
    rcases h with ⟨t, ht, hattr⟩
    rw [loadAux]
    rcases List.mem_cons.mp ht with ht | ht
    · subst ht
      have hstep : loadStep drop canon zero acc t = .error .missingName := by
        simp only [loadStep, hattr]
      rw [hstep]
      rfl
    · cases hstep : loadStep drop canon zero acc t0 with
      | error e => rfl
      | ok acc2 => exact ih acc2 ⟨t, ht, hattr⟩

theorem loadAux_not_ok_of_bad_time (drop canon : List Key) :
    ∀ (ts : List XmlTest) (acc : TestGroup),
      (∃ t ∈ ts, ∃ name, getAttr t nameAttr = some name ∧
        drop.any (fun d => decide (d <:+: normalizeName name)) = false ∧
        (getAttr t timeAttr = none ∨
          ∃ s, getAttr t timeAttr = some s ∧ parseFloat s = none)) →
      (loadAux drop canon false acc ts).isOk = false := by
  intro ts
  induction ts with
  | nil =>
    intro acc h
    rcases h with ⟨t, ht, _⟩
    exact absurd ht (List.not_mem_nil t)
  | cons t0 ts ih =>
    intro acc h
    rcases h with ⟨t, ht, name, hname, hdropf, htime⟩
    rw [loadAux]
    rcases List.mem_cons.mp ht with ht | ht
    · subst ht
      have hbad : (loadStep drop canon false acc t).isOk = false := by
        simp only [loadStep, hname]
        rw [if_neg (by rw [hdropf]; exact Bool.false_ne_true),
          if_neg Bool.false_ne_true]
        rcases htime with htime | ⟨s, hs, hps⟩
        · rw [htime]
          rfl
        · simp only [hs, hps]
          rfl
      cases hstep : loadStep drop canon false acc t with
      | error e => rfl
      | ok acc2 =>
        rw [hstep] at hbad
        exact Bool.noConfusion hbad
    · cases hstep : loadStep drop canon false acc t0 with
      | error e => rfl
      | ok acc2 => exact ih acc2 ⟨t, ht, name, hname, hdropf, htime⟩

theorem loadAux_zero_ok_iff (drop canon : List Key) :
    ∀ (ts : List XmlTest) (acc : TestGroup),
      (loadAux drop canon true acc ts).isOk = true ↔
        ∀ t ∈ ts, (getAttr t nameAttr).isSome = true := by
  intro ts
  induction ts with
  | nil =>
    intro acc
    constructor
    · intro _ t ht
      exact absurd ht (List.not_mem_nil t)
    · intro _
      rfl
  | cons t0 ts ih =>
    intro acc
    rw [loadAux]
    cases hname : getAttr t0 nameAttr with
    | none =>
      have hstep : loadStep drop canon true acc t0 = .error .missingName := by
        simp only [loadStep, hname]
      rw [hstep]
      constructor
      · intro h
        exact Bool.noConfusion h
      · intro h
        have := h t0 (List.mem_cons_self t0 ts)
        rw [hname] at this
        exact Bool.noConfusion this
    | some name =>
      have hstep : ∃ acc2, loadStep drop canon true acc t0 = .ok acc2 := by
        simp only [loadStep, hname]
        by_cases hdrop : drop.any (fun d => decide (d <:+: normalizeName name)) = true
        · rw [if_pos hdrop]
          exact ⟨acc, rfl⟩
        · rw [if_neg hdrop]
          refine ⟨add_dict_list_item acc (collapse canon (normalizeName name))
            ⟨name, 0⟩, ?_⟩
          simp
      rcases hstep with ⟨acc2, hstep⟩
      rw [hstep]
      rw [ih acc2]
      constructor
      · intro h t ht
        rcases List.mem_cons.mp ht with ht | ht
        · subst ht
          rw [hname]
          rfl
        · exact h t ht
      · intro h t ht
        exact h t (List.mem_cons_of_mem t0 ht)

/-- C1: Drop-filter exclusivity of the Report Loader.  For every input file,
drop list, canonicalization list and zero flag, a canonical key containing a
substring from the drop list never appears in the loaded Test Group,
regardless of how many raw records map to it: the drop filter is checked on
the normalized name, and collapsing can only shrink a name to one of its
substrings, so a surviving key cannot contain a dropped substring. -/
theorem drop_filter_exclusivity (tests : List XmlTest) (drop canon : List Key)
    (zero : Bool) (g : TestGroup) (h : load tests drop canon zero = .ok g) :
    ∀ k ∈ keysOf g, ∀ d ∈ drop, ¬ d <:+: k :=
  loadAux_keys_not_dropped drop canon zero tests [] g
    (fun k hk => absurd hk (List.not_mem_nil k)) h

/-- Witness for `drop_filter_exclusivity`: loading a report with one record
matching profile 1's group-1 drop list and one clean record keeps only the
clean key, and no key of the result contains a dropped substring. -/
theorem drop_filter_exclusivity_witness :
    load w1Tests config0.drop1 config0.canon false =
      Except.ok [("other".data, [⟨"other".data, 2⟩])] ∧
    ∀ k ∈ keysOf [(("other".data : Key), [(⟨"other".data, 2⟩ : TestRec)])],
      ∀ d ∈ config0.drop1, ¬ d <:+: k :=
  ⟨by decide,
   drop_filter_exclusivity w1Tests config0.drop1 config0.canon false _ (by decide)⟩

/-- C3 counterexample: with the zero flag set, a `test` entry lacking a
`time` attribute does NOT make the loader fail — `attrib['time']` is never
evaluated on that path, and the record is stored with time 0. -/
theorem zero_flag_swallows_missing_time :
    load [xmlNoTime] [] [] true = Except.ok [("x".data, [⟨"x".data, 0⟩])] := by
  decide

/-- C3 amended: the loader fails on a missing `name` on every invocation;
with the zero flag unset it also fails when a non-dropped entry lacks `time`
or has a non-numeric `time`; but with the zero flag set, the `time` attribute
is never examined, and the load succeeds exactly when every entry has a
`name`. -/
theorem malformed_record_errors (drop canon : List Key) :
    (∀ (ts : List XmlTest) (zero : Bool),
      (∃ t ∈ ts, getAttr t nameAttr = none) →
      (load ts drop canon zero).isOk = false) ∧
    (∀ ts : List XmlTest,
      (∃ t ∈ ts, ∃ name, getAttr t nameAttr = some name ∧
        drop.any (fun d => decide (d <:+: normalizeName name)) = false ∧
        (getAttr t timeAttr = none ∨
          ∃ s, getAttr t timeAttr = some s ∧ parseFloat s = none)) →
      (load ts drop canon false).isOk = false) ∧
    (∀ ts : List XmlTest,
      (load ts drop canon true).isOk = true ↔
        ∀ t ∈ ts, (getAttr t nameAttr).isSome = true) :=
  ⟨fun ts zero h => loadAux_not_ok_of_missing_name drop canon zero ts [] h,
   fun ts h => loadAux_not_ok_of_bad_time drop canon ts [] h,
   fun ts => loadAux_zero_ok_iff drop canon ts []⟩

/-- Witness for `malformed_record_errors` at concrete reports: a missing
name fails, a non-numeric time fails without the zero flag, and a missing
time succeeds with the zero flag. -/
theorem malformed_record_errors_witness :
    (load [xmlNoName] [] [] false).isOk = false ∧
    (load [xmlBadTime] [] [] false).isOk = false ∧
    (load [xmlNoTime] [] [] true).isOk = true :=
  ⟨(malformed_record_errors [] []).1 [xmlNoName] false
      ⟨xmlNoName, by decide, by decide⟩,
   (malformed_record_errors [] []).2.1 [xmlBadTime]
      ⟨xmlBadTime, by decide, "y".data, by decide, by decide,
        Or.inr ⟨"fast".data, by decide, by decide⟩⟩,
   ((malformed_record_errors [] []).2.2 [xmlNoTime]).mpr (by decide)⟩

/-- C8: Merge additivity of the Group Merger.  Merging `g2` into `g1`
extends each key's sequence with `g2`'s records (never replaces, creating
absent keys), so every key's resulting length is the sum of the lengths in
the two inputs. -/
theorem merge_additivity (g1 g2 : TestGroup) (h : (keysOf g2).Nodup) (k : Key) :
    lookupList (update_dict_list g1 g2) k = lookupList g1 k ++ lookupList g2 k ∧
    (lookupList (update_dict_list g1 g2) k).length =
      (lookupList g1 k).length + (lookupList g2 k).length := by
  have hme := lookupList_update g1 g2 h k
  exact ⟨hme, by rw [hme, List.length_append]⟩

/-- Witness for `merge_additivity` on concrete groups, at a key present in
both groups. -/
theorem merge_additivity_witness :
    (keysOf w8g2).Nodup ∧
    lookupList (update_dict_list w8g1 w8g2) ("a".data) =
      lookupList w8g1 ("a".data) ++ lookupList w8g2 ("a".data) :=
  ⟨by decide, (merge_additivity w8g1 w8g2 (by decide) ("a".data)).1⟩

/-! Lemmas about the two differs. -/

theorem diffLine_key {t1 t2 : TestGroup} {label : String} {k : Key} {f : Finding}
    (h : diffLine t1 t2 label k = some f) : f.key = k := by
  unfold diffLine at h
  cases h2 : alookup t2 k with
  | none =>
    simp only [h2] at h
    cases h
    rfl
  | some v2 =>
    simp only [h2] at h
    split at h
    · cases h
      rfl
    · exact Option.noConfusion h

theorem timeLine_key {t1 t2 : TestGroup} {label : String} {ta tr : ℚ} {k : Key}
    {f : Finding} (h : timeLine t1 t2 label ta tr k = some f) : f.key = k := by
  unfold timeLine at h
  split at h
  · cases h
    rfl
  · exact Option.noConfusion h

theorem map_key_filterMap (F : Key → Option Finding)
    (hF : ∀ x f, F x = some f → f.key = x) (l : List Key) :
    (l.filterMap F).map Finding.key = l.filter (fun x => (F x).isSome) := by
  induction l with
  | nil => rfl
  | cons x xs ih =>
    cases hFx : F x with
    | none => simp [List.filterMap_cons, hFx, ih]
    | some f => simp [List.filterMap_cons, hFx, ih, hF x f hFx]

theorem countP_key_filterMap (F : Key → Option Finding)
    (hF : ∀ x f, F x = some f → f.key = x) (l : List Key) (k : Key) :
    (l.filterMap F).countP (fun f => decide (Finding.key f = k)) =
      l.countP (fun x => decide (x = k) && (F x).isSome) := by
  induction l with
  | nil => rfl
  | cons x xs ih =>
    cases hFx : F x with
    | none =>
      rw [List.countP_cons]
      simp [List.filterMap_cons, hFx, ih]
    | some f =>
      rw [List.filterMap_cons]
      simp only [hFx]
      rw [List.countP_cons, List.countP_cons, ih, hF x f hFx]
      simp [hFx]

theorem countP_eq_single {l : List Key} (hnd : l.Nodup) (k : Key) (g : Key → Bool) :
    l.countP (fun x => decide (x = k) && g x) =
      if k ∈ l ∧ g k = true then 1 else 0 := by
  induction l with
  | nil => simp
  | cons x xs ih =>
    have hx := List.nodup_cons.mp hnd
    rw [List.countP_cons, ih hx.2]
    by_cases hxk : x = k
    · have hknotxs : k ∉ xs := by rw [← hxk]; exact hx.1
      rw [if_neg (fun hh => hknotxs hh.1)]
      by_cases hg : g k = true
      · rw [if_pos (show (decide (x = k) && g x) = true by rw [hxk]; simp [hg]),
          if_pos ⟨List.mem_cons.mpr (Or.inl hxk.symm), hg⟩]
      · rw [if_neg (show ¬ (decide (x = k) && g x) = true by rw [hxk]; simp [hg]),
          if_neg (fun hh => hg hh.2)]
    · have hz : ¬ (decide (x = k) && g x) = true := by simp [hxk]
      rw [if_neg hz]
      by_cases hk : k ∈ xs ∧ g k = true
      · rw [if_pos hk, if_pos ⟨List.mem_cons.mpr (Or.inr hk.1), hk.2⟩]
      · rw [if_neg hk, if_neg (fun hh => hk
          ⟨(List.mem_cons.mp hh.1).resolve_left (fun e => hxk e.symm), hh.2⟩)]

theorem countP_key_print_diff (t1 t2 : TestGroup) (label : String)
    (h1 : (keysOf t1).Nodup) (k : Key) :
    (print_diff t1 t2 label).countP (fun f => decide (Finding.key f = k)) =
      if k ∈ keysOf t1 ∧ (diffLine t1 t2 label k).isSome = true then 1 else 0 := by
  unfold print_diff
  rw [countP_key_filterMap _ (fun x f h => diffLine_key h)]
  rw [(sortKeys_perm (keysOf t1)).countP_eq]
  exact countP_eq_single h1 k _

theorem diffLine_none_eq {t1 t2 : TestGroup} {label : String} {k : Key}
    (h2 : alookup t2 k = none) :
    diffLine t1 t2 label k = some (.onlyIn label k) := by
  unfold diffLine
  rw [h2]

theorem diffLine_some_eq {t1 t2 : TestGroup} {label : String} {k : Key}
    {v2 : List TestRec} (h2 : alookup t2 k = some v2) :
    diffLine t1 t2 label k =
      if (lookupList t1 k).length > v2.length then
        some (.moreIn label k (lookupList t1 k).length v2.length)
      else none := by
  unfold diffLine
  rw [h2]

theorem alookup_some_of_mem {β : Type} {d : List (Key × β)} {k : Key}
    (h : k ∈ keysOf d) : ∃ v, alookup d k = some v := by
  rw [mem_keysOf_iff] at h
  cases hx : alookup d k with
  | none => rw [hx] at h; exact Bool.noConfusion h
  | some v => exact ⟨v, rfl⟩

theorem mem_keysOf_of_alookup {β : Type} {d : List (Key × β)} {k : Key} {v : β}
    (h : alookup d k = some v) : k ∈ keysOf d := by
  rw [mem_keysOf_iff, h]
  rfl

theorem lookupList_eq_of_alookup {d : TestGroup} {k : Key} {v : List TestRec}
    (h : alookup d k = some v) : lookupList d k = v := by
  rw [lookupList, h]
  rfl

theorem diffLine_isSome (t1 t2 : TestGroup) (label : String) (k : Key) :
    (diffLine t1 t2 label k).isSome = true ↔
      (k ∉ keysOf t2 ∨ (lookupList t2 k).length < (lookupList t1 k).length) := by
  cases h2 : alookup t2 k with
  | none =>
    rw [diffLine_none_eq h2]
    constructor
    · intro _
      exact Or.inl (alookup_eq_none.mp h2)
    · intro _
      rfl
  | some v2 =>
    have hmem := mem_keysOf_of_alookup h2
    have hll := lookupList_eq_of_alookup h2
    rw [diffLine_some_eq h2]
    by_cases hlt : (lookupList t1 k).length > v2.length
    · rw [if_pos hlt]
      constructor
      · intro _
        rw [hll]
        exact Or.inr hlt
      · intro _
        rfl
    · rw [if_neg hlt]
      constructor
      · intro h
        exact Bool.noConfusion h
      · intro hor
        exfalso
        rcases hor with hh | hh
        · exact hh hmem
        · rw [hll] at hh
          exact hlt hh

/-- C7: the Presence/Cardinality Differ emits findings in strictly ascending
lexicographic key order, an `only in` finding exactly for keys absent from
the other group, a `more in` finding exactly for keys with strictly greater
count (larger count printed first), and across the two symmetric passes every
key with a presence or count mismatch is enumerated exactly once, while a key
present in both groups with equal counts produces no output. -/
theorem presence_differ_correct (A B : TestGroup)
    (hA : (keysOf A).Nodup) (hB : (keysOf B).Nodup) :
    (∀ label, ((print_diff A B label).map Finding.key).Pairwise keyLt) ∧
    (∀ label k, Finding.onlyIn label k ∈ print_diff A B label ↔
        k ∈ keysOf A ∧ k ∉ keysOf B) ∧
    (∀ label k c1 c2, Finding.moreIn label k c1 c2 ∈ print_diff A B label ↔
        k ∈ keysOf A ∧ k ∈ keysOf B ∧
        c1 = (lookupList A k).length ∧ c2 = (lookupList B k).length ∧ c2 < c1) ∧
    (∀ k, (print_diff A B "1").countP (fun f => decide (Finding.key f = k)) +
          (print_diff B A "2").countP (fun f => decide (Finding.key f = k)) =
        if (k ∈ keysOf A ∨ k ∈ keysOf B) ∧
            ¬(k ∈ keysOf A ∧ k ∈ keysOf B ∧
              (lookupList A k).length = (lookupList B k).length) then 1 else 0) := by
  refine ⟨?_, ?_, ?_, ?_⟩
  · intro label
    unfold print_diff
    rw [map_key_filterMap _ (fun x f h => diffLine_key h)]
    exact List.Pairwise.sublist (List.filter_sublist _) (sortKeys_pairwise_lt hA)
  · intro label k
    unfold print_diff
    rw [List.mem_filterMap]
    constructor
    · rintro ⟨a, ha, hfa⟩
      have ha' := mem_sortKeys.mp ha
      cases h2 : alookup B a with
      | none =>
        rw [diffLine_none_eq h2] at hfa
        have hinj := Option.some.inj hfa
        injection hinj with e1 e2
        rw [e2] at ha' h2
        exact ⟨ha', alookup_eq_none.mp h2⟩
      | some v2 =>
        rw [diffLine_some_eq h2] at hfa
        split at hfa
        · exact Finding.noConfusion (Option.some.inj hfa)
        · exact Option.noConfusion hfa
    · rintro ⟨hmem, habs⟩
      exact ⟨k, mem_sortKeys.mpr hmem,
        diffLine_none_eq (alookup_eq_none.mpr habs)⟩
  · intro label k c1 c2
    unfold print_diff
    rw [List.mem_filterMap]
    constructor
    · rintro ⟨a, ha, hfa⟩
      have ha' := mem_sortKeys.mp ha
      cases h2 : alookup B a with
      | none =>
        rw [diffLine_none_eq h2] at hfa
        exact Finding.noConfusion (Option.some.inj hfa)
      | some v2 =>
        rw [diffLine_some_eq h2] at hfa
        split at hfa
        · rename_i hlt
          have hinj := Option.some.inj hfa
          injection hinj with e1 e2 e3 e4
          rw [e2] at ha' h2 hlt e3
          have hmemB := mem_keysOf_of_alookup h2
          have hll := lookupList_eq_of_alookup h2
          refine ⟨ha', hmemB, e3.symm, ?_, ?_⟩
          · rw [← e4, hll]
          · rw [← e3, ← e4]
            exact hlt
        · exact Option.noConfusion hfa
    · rintro ⟨hmA, hmB, hc1, hc2, hlt⟩
      rcases alookup_some_of_mem hmB with ⟨v2, h2⟩
      have hll := lookupList_eq_of_alookup h2
      have hlen2 : v2.length = c2 := by rw [hc2, hll]
      refine ⟨k, mem_sortKeys.mpr hmA, ?_⟩
      rw [diffLine_some_eq h2,
        if_pos (by rw [hlen2, ← hc1]; exact hlt), ← hc1, hlen2]
  · intro k
    rw [countP_key_print_diff A B "1" hA k, countP_key_print_diff B A "2" hB k]
    simp only [diffLine_isSome]
    by_cases hmA : k ∈ keysOf A <;> by_cases hmB : k ∈ keysOf B
    · by_cases hcmp : (lookupList A k).length = (lookupList B k).length
      · rw [if_neg (by
            rintro ⟨_, hor⟩
            rcases hor with hh | hh
            · exact hh hmB
            · rw [hcmp] at hh
              exact Nat.lt_irrefl _ hh),
          if_neg (by
            rintro ⟨_, hor⟩
            rcases hor with hh | hh
            · exact hh hmA
            · rw [hcmp] at hh
              exact Nat.lt_irrefl _ hh),
          if_neg (by
            rintro ⟨_, hne⟩
            exact hne ⟨hmA, hmB, hcmp⟩)]
      · rcases Nat.lt_or_ge (lookupList B k).length (lookupList A k).length with
            hlt | hge
        · rw [if_pos ⟨hmA, Or.inr hlt⟩,
            if_neg (by
              rintro ⟨_, hor⟩
              rcases hor with hh | hh
              · exact hh hmA
              · exact Nat.lt_irrefl _ (Nat.lt_trans hh hlt)),
            if_pos ⟨Or.inl hmA, fun hh => hcmp hh.2.2⟩]
        · have hlt2 : (lookupList A k).length < (lookupList B k).length :=
              Nat.lt_of_le_of_ne hge (fun hh => hcmp hh)
          rw [if_neg (by
              rintro ⟨_, hor⟩
              rcases hor with hh | hh
              · exact hh hmB
              · exact Nat.lt_irrefl _ (Nat.lt_trans hh hlt2)),
            if_pos ⟨hmB, Or.inr hlt2⟩,
            if_pos ⟨Or.inl hmA, fun hh => hcmp hh.2.2⟩]
    · rw [if_pos ⟨hmA, Or.inl hmB⟩,
        if_neg (fun hh => hmB hh.1),
        if_pos ⟨Or.inl hmA, fun hh => hmB hh.2.1⟩]
    · rw [if_neg (fun hh => hmA hh.1),
        if_pos ⟨hmB, Or.inl hmA⟩,
        if_pos ⟨Or.inr hmB, fun hh => hmA hh.1⟩]
    · rw [if_neg (fun hh => hmA hh.1), if_neg (fun hh => hmB hh.1),
        if_neg (by
          rintro ⟨hor, _⟩
          rcases hor with hh | hh
          · exact hmA hh
          · exact hmB hh)]


/-- Witness for `presence_differ_correct`: on concrete groups, the key
present only in the first argument is reported as `only in`. -/
theorem presence_differ_correct_witness :
    (keysOf w8g2).Nodup ∧ (keysOf w8g1).Nodup ∧
    (Finding.onlyIn "2" ("b".data) ∈ print_diff w8g2 w8g1 "2" ↔
      "b".data ∈ keysOf w8g2 ∧ "b".data ∉ keysOf w8g1) :=
  ⟨by decide, by decide,
    (presence_differ_correct w8g2 w8g1 (by decide) (by decide)).2.1 "2" ("b".data)⟩

/-! Lemmas and claims about the Timing Differ. -/

theorem mem_print_time_diff (t1 t2 : TestGroup) (label : String) (ta tr : ℚ)
    (f : Finding) :
    f ∈ print_time_diff t1 t2 label ta tr ↔
      ∃ k, k ∈ keysOf t1 ∧ k ∈ keysOf t2 ∧
        f = .slowerIn label k (sumTimes t1 k) (sumTimes t2 k) ∧
        (sumTimes t1 k - sumTimes t2 k > ta ∨
          pyFloatLt (.fin tr) (pyRatio (sumTimes t1 k) (sumTimes t2 k)) = true) := by
  unfold print_time_diff
  rw [List.mem_filterMap]
  constructor
  · rintro ⟨a, ha, hfa⟩
    have ha' := List.mem_filter.mp (mem_sortKeys.mp ha)
    unfold timeLine at hfa
    split at hfa
    · rename_i hcond
      refine ⟨a, ha'.1, of_decide_eq_true ha'.2, (Option.some.inj hfa).symm, ?_⟩
      rcases (Bool.or_eq_true _ _).mp hcond with hc | hc
      · exact Or.inl (of_decide_eq_true hc)
      · exact Or.inr hc
    · exact Option.noConfusion hfa
  · rintro ⟨k, h1, h2, hf, hcond⟩
    refine ⟨k, mem_sortKeys.mpr (List.mem_filter.mpr ⟨h1, decide_eq_true h2⟩), ?_⟩
    have hc : (decide (sumTimes t1 k - sumTimes t2 k > ta) ||
        pyFloatLt (.fin tr) (pyRatio (sumTimes t1 k) (sumTimes t2 k))) = true := by
      rcases hcond with h | h
      · rw [decide_eq_true h]
        rfl
      · rw [h]
        exact Bool.or_true _
    unfold timeLine
    rw [if_pos hc, hf]

/-- C6: Timing-ratio edge case.  For a key present in both groups the ratio
is `float('inf')` when `sumB = 0` and `sumA / sumB` otherwise, and whenever
`sumB = 0` (in particular with `sumA > 0`) the key is flagged as slower no
matter what finite `time_ratio` threshold is in force. -/
theorem timing_ratio_edge (t1 t2 : TestGroup) (label : String) (ta tr : ℚ)
    (k : Key) (h1 : k ∈ keysOf t1) (h2 : k ∈ keysOf t2) :
    pyRatio (sumTimes t1 k) (sumTimes t2 k) =
      (if sumTimes t2 k = 0 then PyFloat.inf
        else PyFloat.fin (sumTimes t1 k / sumTimes t2 k)) ∧
    (sumTimes t2 k = 0 → 0 < sumTimes t1 k →
      Finding.slowerIn label k (sumTimes t1 k) (sumTimes t2 k) ∈
        print_time_diff t1 t2 label ta tr) := by
  refine ⟨rfl, fun hz _ => ?_⟩
  apply (mem_print_time_diff t1 t2 label ta tr _).mpr
  refine ⟨k, h1, h2, rfl, Or.inr ?_⟩
  rw [pyRatio, if_pos hz]
  rfl

/-- Witness for `timing_ratio_edge`: key `k` has total time 1 in group 1 and
0 in group 2, and is flagged at the default thresholds. -/
theorem timing_ratio_edge_witness :
    sumTimes w6g2 ("k".data) = 0 ∧ 0 < sumTimes w6g1 ("k".data) ∧
    Finding.slowerIn "1" ("k".data) (sumTimes w6g1 ("k".data))
        (sumTimes w6g2 ("k".data)) ∈
      print_time_diff w6g1 w6g2 "1" 3 (3 / 2) := by
  have hz : sumTimes w6g2 ("k".data) = 0 := by
    have he : lookupList w6g2 ("k".data) = [⟨"k".data, 0⟩] := by decide
    rw [sumTimes, he]
    simp
  have hp : 0 < sumTimes w6g1 ("k".data) := by
    have he : lookupList w6g1 ("k".data) = [⟨"k".data, 1⟩] := by decide
    rw [sumTimes, he]
    simp
  exact ⟨hz, hp,
    (timing_ratio_edge w6g1 w6g2 "1" 3 (3 / 2) ("k".data)
      (by decide) (by decide)).2 hz hp⟩

/-- C5 counterexample: the `--time-abs` option is declared with `type=int`
(get_tests.py:176), so its converter rejects the floating-point literal
`3.5` instead of accepting it. -/
theorem time_abs_rejects_float :
    convertArg time_abs_arg ("3.5".data) = none ∧
    time_abs_arg.conv ≠ PyConv.toFloat := by
  exact ⟨by decide, by decide⟩

/-- C5 amended: `--time-abs` is an integer-typed option with default 3 (the
declared converter accepts `3` and rejects `3.5`), and the parsed value is
used as the absolute-seconds threshold of the Timing Differ: a key is flagged
exactly when it is in both groups and `sumA - sumB > time_abs` or the ratio
exceeds `time_ratio`. -/
theorem time_abs_option_and_threshold :
    time_abs_arg.conv = PyConv.toInt ∧ time_abs_arg.dflt = 3 ∧
    convertArg time_abs_arg ("3".data) = some 3 ∧
    convertArg time_abs_arg ("3.5".data) = none ∧
    ∀ (t1 t2 : TestGroup) (label : String) (ta tr : ℚ) (f : Finding),
      f ∈ print_time_diff t1 t2 label ta tr ↔
        ∃ k, k ∈ keysOf t1 ∧ k ∈ keysOf t2 ∧
          f = .slowerIn label k (sumTimes t1 k) (sumTimes t2 k) ∧
          (sumTimes t1 k - sumTimes t2 k > ta ∨
            pyFloatLt (.fin tr) (pyRatio (sumTimes t1 k) (sumTimes t2 k)) = true) := by
  refine ⟨rfl, rfl, ?_, by decide, mem_print_time_diff⟩
  have h3 : convertArg time_abs_arg ("3".data) = some ((3 : ℤ) : ℚ) := by
    show (pyIntConv ("3".data)).map (fun n => (n : ℚ)) = _
    rw [(by decide : pyIntConv ("3".data) = some 3)]
    rfl
  rw [h3]
  norm_num


/-! Claims about the canonicalization step. -/

/-- C4 counterexample: the canonicalization step is not idempotent on all of
its own outputs.  A raw name of three backslashes normalizes to two
backslashes (an already-canonical key), which a second application collapses
to one; and `A.DLL` keeps its extension (the `endswith` test runs before
lowercasing) so its canonical form `a.dll` loses it on a second application. -/
theorem canonicalize_not_idempotent :
    canonicalizeName config0.canon
        (canonicalizeName config0.canon ("\\\\\\".data)) ≠
      canonicalizeName config0.canon ("\\\\\\".data) ∧
    canonicalizeName config0.canon
        (canonicalizeName config0.canon ("A.DLL".data)) ≠
      canonicalizeName config0.canon ("A.DLL".data) :=
  ⟨by decide, by decide⟩

/-- C4 amended: for either configured profile, the canonicalization step is
idempotent on every output that contains no doubled path separator and does
not end in `.dll` or `.cmd` (the two ways a second application can still
change a canonical key). -/
theorem canonicalize_idempotent_amended (canon : List Key)
    (hc : canon = config0.canon ∨ canon = config1.canon) (raw : List Char)
    (h1 : hasDoubleBS (canonicalizeName canon raw) = false)
    (h2 : hasExeExt (canonicalizeName canon raw) = false) :
    canonicalizeName canon (canonicalizeName canon raw) =
      canonicalizeName canon raw := by
  cases hfind : canon.find? (fun c => decide (c <:+: normalizeName raw)) with
  | none =>
    have hk : canonicalizeName canon raw = normalizeName raw := by
      unfold canonicalizeName collapse
      rw [hfind]
    rw [hk] at h1 h2 ⊢
    have hrep : pyReplaceDouble (normalizeName raw) = normalizeName raw :=
      pyReplaceDouble_eq_self _ h1
    have hstrip : stripExt (normalizeName raw) = normalizeName raw :=
      stripExt_eq_self h2
    have hlow : toLowerL (normalizeName raw) = normalizeName raw :=
      toLowerL_idem (stripExt (pyReplaceDouble raw))
    have hnorm : normalizeName (normalizeName raw) = normalizeName raw := by
      show toLowerL (stripExt (pyReplaceDouble (normalizeName raw))) =
        normalizeName raw
      rw [hrep, hstrip, hlow]
    unfold canonicalizeName
    rw [hnorm]
    unfold collapse
    rw [hfind]
  | some c =>
    have hk : canonicalizeName canon raw = c := by
      unfold canonicalizeName collapse
      rw [hfind]
    rw [hk]
    have hcmem := List.mem_of_find?_eq_some hfind
    rcases hc with hc | hc
    · rw [hc] at hcmem
      have hJn : 'J' ∉ normalizeName raw :=
        not_J_mem_toLowerL (stripExt (pyReplaceDouble raw))
      rcases List.mem_cons.mp hcmem with he | hcmem
      · rw [he, hc]
        decide
      rcases List.mem_cons.mp hcmem with he | hcmem
      · rw [he, hc]
        decide
      rcases List.mem_cons.mp hcmem with he | hcmem
      · exfalso
        have hinf : c <:+: normalizeName raw := by
          have := List.find?_some hfind
          simpa using this
        apply hJn
        apply hinf.subset
        rw [he]
        decide
      · exact absurd hcmem (List.not_mem_nil c)
    · rw [hc] at hfind
      exact Option.noConfusion hfind

/-- Witness for `canonicalize_idempotent_amended` at a clean concrete key. -/
theorem canonicalize_idempotent_amended_witness :
    hasDoubleBS (canonicalizeName config0.canon ("other".data)) = false ∧
    hasExeExt (canonicalizeName config0.canon ("other".data)) = false ∧
    canonicalizeName config0.canon
        (canonicalizeName config0.canon ("other".data)) =
      canonicalizeName config0.canon ("other".data) :=
  ⟨by decide, by decide,
    canonicalize_idempotent_amended config0.canon (Or.inl rfl) ("other".data)
      (by decide) (by decide)⟩

/-- C10: the third canonicalization entry of profile 1 is the Python literal
`'JIT\Regression\CLR-x86-JIT\V2.0-Beta2\b323557'`, which keeps uppercase
letters and contains a backspace character from the `\b` escape; names are
lowercased before the substring test, so that entry can never occur in a
normalized name, and no raw name ever canonicalizes to it (by collapse or
otherwise). -/
theorem uppercase_canon_entry_unreachable :
    config0.canon[2]? = some canonEntry3 ∧
    'J' ∈ canonEntry3 ∧ '\x08' ∈ canonEntry3 ∧
    (∀ s : List Char, decide (canonEntry3 <:+: toLowerL s) = false) ∧
    (∀ raw : List Char, canonicalizeName config0.canon raw ≠ canonEntry3) := by
  have hnotinf : ∀ s : List Char, ¬ canonEntry3 <:+: toLowerL s := by
    intro s hinf
    apply not_J_mem_toLowerL s
    apply hinf.subset
    decide
  refine ⟨by decide, by decide, by decide, ?_, ?_⟩
  · intro s
    exact decide_eq_false (hnotinf s)
  · intro raw hne
    cases hfind : config0.canon.find?
        (fun c => decide (c <:+: normalizeName raw)) with
    | none =>
      have hk : canonicalizeName config0.canon raw = normalizeName raw := by
        unfold canonicalizeName collapse
        rw [hfind]
      rw [hk] at hne
      exact hnotinf (stripExt (pyReplaceDouble raw)) (hne ▸ List.infix_refl _)
    | some c =>
      have hk : canonicalizeName config0.canon raw = c := by
        unfold canonicalizeName collapse
        rw [hfind]
      rw [hk] at hne
      have hinf : c <:+: normalizeName raw := by
        have := List.find?_some hfind
        simpa using this
      rw [hne] at hinf
      exact hnotinf (stripExt (pyReplaceDouble raw)) hinf


/-! The scenario of spec section 8 (claim C9). -/

/-- C9 counterexample: with group 2 as `A` and label `2`, the differ prints
the larger count first — `more in 2: a\x\t1 (2 > 1)` — not `(1 > 2)` as the
claim expects (`print_diff` interpolates `len(v1)` before `len(v2)`). -/
theorem scenario_line_counterexample :
    renderFindings (print_diff scenG2 scenG1 "2") =
      ["more in 2: a\\x\\t1 (2 > 1)"] ∧
    renderFindings (print_diff scenG2 scenG1 "2") ≠
      ["more in 2: a\\x\\t1 (1 > 2)"] :=
  ⟨by decide, by decide⟩

/-- C9 amended: both raw names of group 2 canonicalize to `a\x\t1`; running
the Presence/Cardinality Differ with `A = group 2`, label `2` emits exactly
the line `more in 2: a\x\t1 (2 > 1)`; and at the default thresholds the
Timing Differ flags nothing in either direction (sums 1.0 vs 1.1). -/
theorem scenario_more_in_2 :
    canonicalizeName [] ("a\\\\x\\\\t1.cmd".data) = scenKey ∧
    canonicalizeName [] ("a\\\\x\\\\t1.dll".data) = scenKey ∧
    renderFindings (print_diff scenG2 scenG1 "2") =
      ["more in 2: a\\x\\t1 (2 > 1)"] ∧
    print_time_diff scenG1 scenG2 "1" 3 (3 / 2) = [] ∧
    print_time_diff scenG2 scenG1 "2" 3 (3 / 2) = [] := by
  have hv1 : sumTimes scenG1 scenKey = 1 := by
    have he : lookupList scenG1 scenKey = [⟨"a\\\\x\\\\t1.dll".data, 1⟩] := rfl
    rw [sumTimes, he]
    simp
  have hv2 : sumTimes scenG2 scenKey = 11 / 10 := by
    have he : lookupList scenG2 scenKey =
        [⟨"a\\\\x\\\\t1.cmd".data, 1 / 2⟩, ⟨"a\\\\x\\\\t1.dll".data, 3 / 5⟩] := rfl
    rw [sumTimes, he]
    simp
    norm_num
  have hline1 : timeLine scenG1 scenG2 "1" 3 (3 / 2) scenKey = none := by
    unfold timeLine
    rw [hv1, hv2, pyRatio, if_neg (by norm_num : ¬ (11 / 10 : ℚ) = 0)]
    simp only [pyFloatLt]
    rw [decide_eq_false (by norm_num : ¬ ((1 : ℚ) - 11 / 10 > 3))]
    rw [if_neg (by
      rw [Bool.false_or, decide_eq_true_eq]
      norm_num)]
  have hline2 : timeLine scenG2 scenG1 "2" 3 (3 / 2) scenKey = none := by
    unfold timeLine
    rw [hv1, hv2, pyRatio, if_neg (by norm_num : ¬ (1 : ℚ) = 0)]
    simp only [pyFloatLt]
    rw [decide_eq_false (by norm_num : ¬ ((11 : ℚ) / 10 - 1 > 3))]
    rw [if_neg (by
      rw [Bool.false_or, decide_eq_true_eq]
      norm_num)]
  refine ⟨by decide, by decide, by decide, ?_, ?_⟩
  · unfold print_time_diff
    rw [(by decide : sortKeys ((keysOf scenG1).filter
        (fun k => decide (k ∈ keysOf scenG2))) = [scenKey])]
    rw [List.filterMap_cons, hline1]
    rfl
  · unfold print_time_diff
    rw [(by decide : sortKeys ((keysOf scenG2).filter
        (fun k => decide (k ∈ keysOf scenG1))) = [scenKey])]
    rw [List.filterMap_cons, hline2]
    rfl


/-! Lemmas about the Directory Grouper. -/

theorem alookup_dictSet {β : Type} (a : List (Key × β)) (k k' : Key) (v : β) :
    alookup (dictSet a k v) k' = if k' = k then some v else alookup a k' := by
  induction a with
  | nil =>
    by_cases h : k' = k <;> simp [dictSet, alookup, h]
  | cons kv rest ih =>
    rw [dictSet]
    by_cases h1 : k = kv.1
    · rw [if_pos h1]
      by_cases h2 : k' = k
      · rw [alookup_cons, if_pos (h2.trans h1), if_pos h2]
      · rw [alookup_cons, if_neg (fun hh => h2 (hh.trans h1.symm)), if_neg h2,
          alookup_cons, if_neg (fun hh => h2 (hh.trans h1.symm))]
    · rw [if_neg h1]
      by_cases h2 : k' = kv.1
      · have h3 : k' ≠ k := fun hh => h1 (hh.symm.trans h2)
        rw [alookup_cons, if_pos h2, if_neg h3, alookup_cons, if_pos h2]
      · rw [alookup_cons, if_neg h2, ih, alookup_cons, if_neg h2]

theorem mem_keysOf_dictSet {β : Type} {a : List (Key × β)} {k k' : Key} {v : β} :
    k' ∈ keysOf (dictSet a k v) ↔ k' ∈ keysOf a ∨ k' = k := by
  rw [mem_keysOf_iff, alookup_dictSet]
  by_cases h : k' = k
  · simp [h]
  · simp [h, mem_keysOf_iff]

theorem nodup_keysOf_dictSet {β : Type} {a : List (Key × β)} {k : Key} {v : β}
    (h : (keysOf a).Nodup) : (keysOf (dictSet a k v)).Nodup := by
  induction a with
  | nil => simp [dictSet, keysOf]
  | cons kv rest ih =>
    have hc : (kv.1 :: keysOf rest).Nodup := by rw [← keysOf_cons]; exact h
    have hc' := List.nodup_cons.mp hc
    rw [dictSet]
    by_cases h1 : k = kv.1
    · rw [if_pos h1]
      exact hc
    · rw [if_neg h1]
      rw [keysOf_cons, List.nodup_cons]
      refine ⟨?_, ih hc'.2⟩
      intro hmem
      rcases mem_keysOf_dictSet.mp hmem with hmem | hmem
      · exact hc'.1 hmem
      · exact h1 hmem.symm

theorem dictSet_append_of_not_mem {β : Type} {m : List (Key × β)} {k : Key}
    {v : β} (h : k ∉ keysOf m) : dictSet m k v = m ++ [(k, v)] := by
  induction m with
  | nil => rfl
  | cons kv rest ih =>
    have h' : k ∉ keysOf rest ∧ k ≠ kv.1 := by
      rw [keysOf_cons] at h
      exact ⟨fun hh => h (List.mem_cons_of_mem _ hh),
        fun hh => h (hh ▸ List.mem_cons_self _ _)⟩
    rw [dictSet, if_neg h'.2, ih h'.1]
    rfl

theorem alookup_of_mem_nodup {β : Type} {l : List (Key × β)}
    (h : (keysOf l).Nodup) {kv : Key × β} (hm : kv ∈ l) :
    alookup l kv.1 = some kv.2 := by
  induction l with
  | nil => exact absurd hm (List.not_mem_nil kv)
  | cons kv0 rest ih =>
    have hc := List.nodup_cons.mp (by rw [← keysOf_cons]; exact h)
    rcases List.mem_cons.mp hm with hm | hm
    · rw [hm, alookup_cons, if_pos rfl]
    · have hne : kv.1 ≠ kv0.1 := by
        intro hh
        apply hc.1
        rw [← hh]
        exact List.mem_map.mpr ⟨kv, hm, rfl⟩
      rw [alookup_cons, if_neg hne]
      exact ih hc.2 hm

theorem dirEntries_cons_eq {g : TestGroup} {kv : Key × List TestRec} {d : Key}
    (hd : dirOf kv.1 = d) :
    dirEntries (kv :: g) d = kv :: dirEntries g d := by
  unfold dirEntries
  rw [List.filter_cons, if_pos (by rw [hd]; simp)]

theorem dirEntries_cons_ne {g : TestGroup} {kv : Key × List TestRec} {d : Key}
    (hd : dirOf kv.1 ≠ d) :
    dirEntries (kv :: g) d = dirEntries g d := by
  unfold dirEntries
  rw [List.filter_cons, if_neg (by simp [hd])]

theorem alookup_dirEntries_of_dir {g : TestGroup} {d k : Key}
    (hd : dirOf k = d) : alookup (dirEntries g d) k = alookup g k := by
  induction g with
  | nil => rfl
  | cons kv rest ih =>
    by_cases h1 : dirOf kv.1 = d
    · rw [dirEntries_cons_eq h1, alookup_cons, alookup_cons]
      by_cases h2 : k = kv.1
      · rw [if_pos h2, if_pos h2]
      · rw [if_neg h2, if_neg h2, ih]
    · rw [dirEntries_cons_ne h1, alookup_cons]
      have h2 : k ≠ kv.1 := fun hh => h1 (by rw [← hh, hd])
      rw [if_neg h2, ih]

theorem keysOf_dirEntries (g : TestGroup) (d : Key) :
    keysOf (dirEntries g d) = keysUnder g d := by
  induction g with
  | nil => rfl
  | cons kv rest ih =>
    by_cases h1 : dirOf kv.1 = d
    · rw [dirEntries_cons_eq h1, keysOf_cons, ih]
      unfold keysUnder
      rw [keysOf_cons, List.filter_cons, if_pos (by rw [h1]; simp)]
    · rw [dirEntries_cons_ne h1, ih]
      unfold keysUnder
      rw [keysOf_cons, List.filter_cons, if_neg (by simp [h1])]

theorem alookup_group_foldl (l : TestGroup) :
    ∀ (acc : List (Key × TestGroup)),
      (keysOf l).Nodup →
      (∀ kv ∈ l, ∀ d m, alookup acc d = some m → kv.1 ∉ keysOf m) →
      ∀ d, alookup (l.foldl groupStep acc) d =
        (alookup acc d).elim
          (if dirEntries l d = [] then none else some (dirEntries l d))
          (fun m => some (m ++ dirEntries l d)) := by
  induction l with
  | nil =>
    intro acc _ _ d
    cases hacc : alookup acc d with
    | none => simp [dirEntries, hacc]
    | some m => simp [dirEntries, hacc]
  | cons kv rest ih =>
    intro acc hnd hfresh d
    have hc := List.nodup_cons.mp (by rw [← keysOf_cons]; exact hnd)
    have hstep : List.foldl groupStep acc (kv :: rest) =
        List.foldl groupStep (groupStep acc kv) rest := rfl
    rw [hstep]
    cases hacc : alookup acc (dirOf kv.1) with
    | some m0 =>
      have hk0 : kv.1 ∉ keysOf m0 :=
        hfresh kv (List.mem_cons_self kv rest) (dirOf kv.1) m0 hacc
      have hgs : groupStep acc kv =
          dictSet acc (dirOf kv.1) (m0 ++ [(kv.1, kv.2)]) := by
        simp only [groupStep]
        rw [hacc, Option.getD_some, dictSet_append_of_not_mem hk0]
      rw [hgs]
      have hfresh' : ∀ kv' ∈ rest, ∀ d' m, alookup
          (dictSet acc (dirOf kv.1) (m0 ++ [(kv.1, kv.2)])) d' = some m →
          kv'.1 ∉ keysOf m := by
        intro kv' hkv' d' m hla
        rw [alookup_dictSet] at hla
        by_cases hdd : d' = dirOf kv.1
        · rw [if_pos hdd] at hla
          have hm : m = m0 ++ [(kv.1, kv.2)] := (Option.some.inj hla).symm
          rw [hm]
          intro hmem
          have : keysOf (m0 ++ [(kv.1, kv.2)]) = keysOf m0 ++ [kv.1] := by
            unfold keysOf
            rw [List.map_append]
            rfl
          rw [this] at hmem
          rcases List.mem_append.mp hmem with hmem | hmem
          · exact hfresh kv' (List.mem_cons_of_mem kv hkv') _ _ hacc hmem
          · have he : kv'.1 = kv.1 := by simpa using hmem
            apply hc.1
            rw [← he]
            exact List.mem_map.mpr ⟨kv', hkv', rfl⟩
        · rw [if_neg hdd] at hla
          exact hfresh kv' (List.mem_cons_of_mem kv hkv') d' m hla
      rw [ih _ hc.2 hfresh' d]
      rw [alookup_dictSet]
      by_cases hdd : d = dirOf kv.1
      · rw [if_pos hdd, hdd, hacc, dirEntries_cons_eq rfl]
        show some ((m0 ++ [(kv.1, kv.2)]) ++ dirEntries rest (dirOf kv.1)) =
          some (m0 ++ kv :: dirEntries rest (dirOf kv.1))
        rw [List.append_assoc]
        rfl
      · rw [if_neg hdd]
        rw [dirEntries_cons_ne (fun hh => hdd hh.symm)]
    | none =>
      have hgs : groupStep acc kv =
          dictSet acc (dirOf kv.1) [(kv.1, kv.2)] := by
        simp only [groupStep]
        rw [hacc]
        rfl
      rw [hgs]
      have hfresh' : ∀ kv' ∈ rest, ∀ d' m, alookup
          (dictSet acc (dirOf kv.1) [(kv.1, kv.2)]) d' = some m →
          kv'.1 ∉ keysOf m := by
        intro kv' hkv' d' m hla
        rw [alookup_dictSet] at hla
        by_cases hdd : d' = dirOf kv.1
        · rw [if_pos hdd] at hla
          have hm : m = [(kv.1, kv.2)] := (Option.some.inj hla).symm
          rw [hm]
          intro hmem
          have he : kv'.1 = kv.1 := by simpa [keysOf] using hmem
          apply hc.1
          rw [← he]
          exact List.mem_map.mpr ⟨kv', hkv', rfl⟩
        · rw [if_neg hdd] at hla
          exact hfresh kv' (List.mem_cons_of_mem kv hkv') d' m hla
      rw [ih _ hc.2 hfresh' d]
      rw [alookup_dictSet]
      by_cases hdd : d = dirOf kv.1
      · rw [if_pos hdd, hdd, hacc, dirEntries_cons_eq rfl,
          if_neg (List.cons_ne_nil kv (dirEntries rest (dirOf kv.1)))]
        rfl
      · rw [if_neg hdd]
        rw [dirEntries_cons_ne (fun hh => hdd hh.symm)]

theorem alookup_group_dir {g : TestGroup} (h : (keysOf g).Nodup) (d : Key) :
    alookup (group_test_by_directory g) d =
      if dirEntries g d = [] then none else some (dirEntries g d) := by
  have hmain := alookup_group_foldl g [] h
    (fun kv _ d' m hla => Option.noConfusion hla) d
  rw [group_test_by_directory, hmain]
  rfl


theorem nodup_keysOf_group (g : TestGroup) :
    (keysOf (group_test_by_directory g)).Nodup := by
  suffices h : ∀ (l : TestGroup) (acc : List (Key × TestGroup)),
      (keysOf acc).Nodup → (keysOf (l.foldl groupStep acc)).Nodup by
    exact h g [] (by simp [keysOf])
  intro l
  induction l with
  | nil => intro acc h; exact h
  | cons kv rest ih =>
    intro acc h
    have hstep : (keysOf (groupStep acc kv)).Nodup := by
      simp only [groupStep]
      exact nodup_keysOf_dictSet h
    exact ih _ hstep

theorem mem_of_alookup {β : Type} {l : List (Key × β)} {k : Key} {v : β}
    (h : alookup l k = some v) : (k, v) ∈ l := by
  induction l with
  | nil => exact Option.noConfusion h
  | cons kv rest ih =>
    rw [alookup_cons] at h
    by_cases hk : k = kv.1
    · rw [if_pos hk] at h
      exact List.mem_cons.mpr (Or.inl (Prod.ext hk (Option.some.inj h).symm))
    · rw [if_neg hk] at h
      exact List.mem_cons.mpr (Or.inr (ih h))

theorem group_entry_eq {g : TestGroup} (h : (keysOf g).Nodup)
    {dm : Key × TestGroup} (hm : dm ∈ group_test_by_directory g) :
    dm.2 = dirEntries g dm.1 ∧ dirEntries g dm.1 ≠ [] := by
  have h1 := alookup_of_mem_nodup (nodup_keysOf_group g) hm
  rw [alookup_group_dir h dm.1] at h1
  by_cases hne : dirEntries g dm.1 = []
  · rw [if_pos hne] at h1
    exact Option.noConfusion h1
  · rw [if_neg hne] at h1
    exact ⟨(Option.some.inj h1).symm, hne⟩

theorem group_mem_of_dirEntries_ne {g : TestGroup} (h : (keysOf g).Nodup)
    {d : Key} (hne : dirEntries g d ≠ []) :
    (d, dirEntries g d) ∈ group_test_by_directory g := by
  apply mem_of_alookup
  rw [alookup_group_dir h d, if_neg hne]

theorem mem_keysUnder {g : TestGroup} {d k : Key} :
    k ∈ keysUnder g d ↔ k ∈ keysOf g ∧ dirOf k = d := by
  unfold keysUnder
  rw [List.mem_filter]
  simp

theorem mem_unionKeysUnder {g1 g2 : TestGroup} {d k : Key} :
    k ∈ unionKeysUnder g1 g2 d ↔
      dirOf k = d ∧ (k ∈ keysOf g1 ∨ k ∈ keysOf g2) := by
  unfold unionKeysUnder
  rw [List.mem_append, List.mem_filter, mem_keysUnder, mem_keysUnder]
  constructor
  · rintro (⟨hm, hd⟩ | ⟨⟨hm, hd⟩, _⟩)
    · exact ⟨hd, Or.inl hm⟩
    · exact ⟨hd, Or.inr hm⟩
  · rintro ⟨hd, hm | hm⟩
    · exact Or.inl ⟨hm, hd⟩
    · by_cases h1 : k ∈ keysOf g1
      · exact Or.inl ⟨h1, hd⟩
      · exact Or.inr ⟨⟨hm, hd⟩, by simpa using h1⟩

theorem unionKeys_dirEntries (g1 g2 : TestGroup) (d : Key) :
    unionKeys (dirEntries g1 d) (dirEntries g2 d) =
      sortKeys (unionKeysUnder g1 g2 d) := by
  unfold unionKeys unionKeysUnder
  rw [keysOf_dirEntries, keysOf_dirEntries]
  congr 2
  apply List.filter_congr
  intro x hx
  have hdx : dirOf x = d := (mem_keysUnder.mp hx).2
  rw [decide_eq_decide]
  constructor
  · intro hn hm
    exact hn (mem_keysUnder.mpr ⟨hm, hdx⟩)
  · intro hn hm
    exact hn (mem_keysUnder.mp hm).1

theorem lookupList_dirEntries {g : TestGroup} {d k : Key} (hd : dirOf k = d) :
    lookupList (dirEntries g d) k = lookupList g k := by
  rw [lookupList, lookupList, alookup_dirEntries_of_dir hd]

theorem mem_keysOf_dirEntries_iff {g : TestGroup} {d k : Key}
    (hd : dirOf k = d) : k ∈ keysOf (dirEntries g d) ↔ k ∈ keysOf g := by
  rw [keysOf_dirEntries, mem_keysUnder]
  exact ⟨fun h => h.1, fun h => ⟨h, hd⟩⟩

theorem blockLine_dirEntries (g1 g2 : TestGroup) {d k : Key}
    (hd : dirOf k = d) :
    blockLine (dirEntries g1 d) (dirEntries g2 d) k = blockLine g1 g2 k := by
  unfold blockLine
  rw [alookup_dirEntries_of_dir hd, alookup_dirEntries_of_dir hd]

theorem mismatchB_true_iff (m1 m2 : TestGroup) (k : Key) :
    mismatchB m1 m2 k = true ↔ mismatchP m1 m2 k := by
  unfold mismatchB mismatchP
  simp
  tauto

theorem mismatchB_dirEntries (g1 g2 : TestGroup) {d k : Key}
    (hd : dirOf k = d) :
    (mismatchB (dirEntries g1 d) (dirEntries g2 d) k = true ↔
      mismatchP g1 g2 k) := by
  rw [mismatchB_true_iff]
  unfold mismatchP
  rw [lookupList_dirEntries hd, lookupList_dirEntries hd]
  constructor
  · intro hn hc
    exact hn ⟨(mem_keysOf_dirEntries_iff hd).mpr hc.1,
      (mem_keysOf_dirEntries_iff hd).mpr hc.2.1, hc.2.2⟩
  · intro hn hc
    exact hn ⟨(mem_keysOf_dirEntries_iff hd).mp hc.1,
      (mem_keysOf_dirEntries_iff hd).mp hc.2.1, hc.2.2⟩

theorem splitBS_ne_nil (s : List Char) : splitBS s ≠ [] := by
  cases s with
  | nil => simp [splitBS]
  | cons c rest =>
    by_cases hc : c = '\\'
    · simp [splitBS, hc]
    · cases h : splitBS rest <;> simp [splitBS, hc, h]

theorem joinBS_cons_ne {p : List Char} {ps : List (List Char)} (h : ps ≠ []) :
    joinBS (p :: ps) = p ++ '\\' :: joinBS ps := by
  cases ps with
  | nil => exact absurd rfl h
  | cons q qs => rfl

theorem joinBS_splitBS (s : List Char) : joinBS (splitBS s) = s := by
  induction s with
  | nil => rfl
  | cons c rest ih =>
    by_cases hc : c = '\\'
    · have hsplit : splitBS (c :: rest) = [] :: splitBS rest := by
        rw [splitBS, if_pos hc]
      rw [hsplit, joinBS_cons_ne (splitBS_ne_nil rest), ih, hc]
      rfl
    · obtain ⟨q, qs, hq⟩ : ∃ q qs, splitBS rest = q :: qs := by
        cases h : splitBS rest with
        | nil => exact absurd h (splitBS_ne_nil rest)
        | cons q qs => exact ⟨q, qs, rfl⟩
      have hsplit : splitBS (c :: rest) = (c :: q) :: qs := by
        rw [splitBS, if_neg hc, hq]
      rw [hsplit]
      cases qs with
      | nil =>
        rw [hq] at ih
        have : q = rest := ih
        rw [joinBS, this]
      | cons r rs =>
        rw [joinBS_cons_ne (List.cons_ne_nil r rs)]
        rw [hq, joinBS_cons_ne (List.cons_ne_nil r rs)] at ih
        rw [← ih]
        rfl

theorem joinBS_append (l1 l2 : List (List Char)) (h1 : l1 ≠ []) (h2 : l2 ≠ []) :
    joinBS (l1 ++ l2) = joinBS l1 ++ '\\' :: joinBS l2 := by
  induction l1 with
  | nil => exact absurd rfl h1
  | cons x l1' ih =>
    cases l1' with
    | nil =>
      rw [List.singleton_append, joinBS_cons_ne h2]
      rfl
    | cons y l1'' =>
      rw [List.cons_append,
        joinBS_cons_ne (by simp : (y :: l1'') ++ l2 ≠ []),
        ih (List.cons_ne_nil y l1''),
        joinBS_cons_ne (List.cons_ne_nil y l1''), List.append_assoc]
      rfl

theorem dir_reconstruct (k : Key) (hne : dirOf k ≠ []) :
    k = dirOf k ++ '\\' :: shortOf k := by
  have htake : (splitBS k).take ((splitBS k).length - 2) ≠ [] := by
    intro h0
    apply hne
    unfold dirOf
    rw [h0]
    rfl
  have hlen : (splitBS k).length ≥ 3 := by
    by_contra hlt
    push_neg at hlt
    apply htake
    rw [Nat.sub_eq_zero_of_le (Nat.lt_succ_iff.mp hlt), List.take_zero]
  have hdrop : (splitBS k).drop ((splitBS k).length - 2) ≠ [] := by
    intro h0
    have hl := congrArg List.length h0
    rw [List.length_drop] at hl
    simp at hl
    omega
  calc k = joinBS (splitBS k) := (joinBS_splitBS k).symm
    _ = joinBS ((splitBS k).take ((splitBS k).length - 2) ++
          (splitBS k).drop ((splitBS k).length - 2)) := by
        rw [List.take_append_drop]
    _ = dirOf k ++ '\\' :: shortOf k := joinBS_append _ _ htake hdrop

theorem keyLe_shortOf {a b d : Key} (da : dirOf a = d) (db : dirOf b = d)
    (hne : d ≠ []) : keyLe a b = keyLe (shortOf a) (shortOf b) := by
  have ha := dir_reconstruct a (by rw [da]; exact hne)
  have hb := dir_reconstruct b (by rw [db]; exact hne)
  conv_lhs => rw [ha, hb]
  rw [da, db]
  have hsa : d ++ '\\' :: shortOf a = (d ++ ['\\']) ++ shortOf a := by
    rw [List.append_assoc]
    rfl
  have hsb : d ++ '\\' :: shortOf b = (d ++ ['\\']) ++ shortOf b := by
    rw [List.append_assoc]
    rfl
  rw [hsa, hsb, keyLe_append]

theorem blockLine_short {m1 m2 : TestGroup} {k : Key} {ln : GroupLine}
    (h : blockLine m1 m2 k = some ln) : ln.short = shortOf k := by
  unfold blockLine at h
  cases h1 : alookup m1 k with
  | none =>
    cases h2 : alookup m2 k with
    | none =>
      simp only [h1, h2] at h
      exact Option.noConfusion h
    | some v2 =>
      simp only [h1, h2] at h
      cases h
      rfl
  | some v1 =>
    cases h2 : alookup m2 k with
    | none =>
      simp only [h1, h2] at h
      cases h
      rfl
    | some v2 =>
      simp only [h1, h2] at h
      split at h
      · cases h
        rfl
      · split at h
        · cases h
          rfl
        · exact Option.noConfusion h

theorem map_short_filterMap (F : Key → Option GroupLine)
    (hF : ∀ x ln, F x = some ln → ln.short = shortOf x) (l : List Key) :
    ((l.filterMap F).map GroupLine.short) =
      (l.filter (fun x => (F x).isSome)).map shortOf := by
  induction l with
  | nil => rfl
  | cons x xs ih =>
    cases hFx : F x with
    | none => simp [List.filterMap_cons, hFx, ih]
    | some ln => simp [List.filterMap_cons, hFx, ih, hF x ln hFx]


theorem filterMap_congr_mem {α β : Type} {f g : α → Option β} {l : List α}
    (h : ∀ x ∈ l, f x = g x) : l.filterMap f = l.filterMap g := by
  induction l with
  | nil => rfl
  | cons x xs ih =>
    rw [List.filterMap_cons, List.filterMap_cons,
      h x (List.mem_cons_self x xs), ih (fun y hy => h y (List.mem_cons_of_mem x hy))]

/-- C2 amended: a directory block is emitted exactly for the directories of
GROUP 1's partition that contain a mismatched key (a directory appearing only
in group 2 never yields a block, even when mismatched); an emitted block
lists the distinct keys under its directory from either group in sorted
full-key order, annotated by `blockLine` (`Only in 1/2`, `More in 1/2` with
the larger count first, nothing for equal counts); and for a block with a
nonempty directory the printed short names are in ascending lexicographic
order. -/
theorem grouped_differ_amended (g1 g2 : TestGroup)
    (h1 : (keysOf g1).Nodup) (h2 : (keysOf g2).Nodup) :
    (∀ d : Key,
      (∃ b ∈ print_grouped_by_dir g1 g2, b.dir = d) ↔
        ((∃ k ∈ keysOf g1, dirOf k = d) ∧
          ∃ k ∈ unionKeysUnder g1 g2 d, mismatchP g1 g2 k)) ∧
    (∀ b ∈ print_grouped_by_dir g1 g2,
      b.lines = (sortKeys (unionKeysUnder g1 g2 b.dir)).filterMap
        (blockLine g1 g2)) ∧
    (∀ b ∈ print_grouped_by_dir g1 g2, b.dir ≠ [] →
      (b.lines.map GroupLine.short).Pairwise (fun x y => keyLe x y = true)) := by
  have hm2 : ∀ d, (alookup (group_test_by_directory g2) d).getD [] =
      dirEntries g2 d := by
    intro d
    rw [alookup_group_dir h2 d]
    by_cases hne : dirEntries g2 d = []
    · rw [if_pos hne, hne]
      rfl
    · rw [if_neg hne]
      rfl
  have hblocks : ∀ b ∈ print_grouped_by_dir g1 g2,
      b.dir ∈ keysOf (group_test_by_directory g1) ∧
      b.lines = (sortKeys (unionKeysUnder g1 g2 b.dir)).filterMap
        (blockLine g1 g2) := by
    intro b hb
    simp only [print_grouped_by_dir] at hb
    rw [List.mem_filterMap] at hb
    obtain ⟨dm, hdm, hF⟩ := hb
    obtain ⟨hdm2, hdne⟩ := group_entry_eq h1 hdm
    simp only [hm2] at hF
    rw [hdm2, unionKeys_dirEntries] at hF
    split at hF
    · have hb' := Option.some.inj hF
      rw [← hb']
      constructor
      · exact List.mem_map.mpr ⟨dm, hdm, rfl⟩
      · apply filterMap_congr_mem
        intro x hx
        exact blockLine_dirEntries g1 g2
          (mem_unionKeysUnder.mp (mem_sortKeys.mp hx)).1
    · exact Option.noConfusion hF
  refine ⟨?_, fun b hb => (hblocks b hb).2, ?_⟩
  · intro d
    constructor
    · rintro ⟨b, hb, hbd⟩
      simp only [print_grouped_by_dir] at hb
      rw [List.mem_filterMap] at hb
      obtain ⟨dm, hdm, hF⟩ := hb
      obtain ⟨hdm2, hdne⟩ := group_entry_eq h1 hdm
      simp only [hm2] at hF
      rw [hdm2, unionKeys_dirEntries] at hF
      split at hF
      · rename_i hany
        have hb' := Option.some.inj hF
        have hdd : dm.1 = d := by rw [← hbd, ← hb']
        constructor
        · obtain ⟨kv, hkv⟩ := List.exists_mem_of_ne_nil _ hdne
          have hkv' := List.mem_filter.mp hkv
          refine ⟨kv.1, List.mem_map.mpr ⟨kv, hkv'.1, rfl⟩, ?_⟩
          rw [← hdd]
          exact of_decide_eq_true hkv'.2
        · obtain ⟨k, hkmem, hkmis⟩ := List.any_eq_true.mp hany
          have hkU := mem_sortKeys.mp hkmem
          have hkd : dirOf k = dm.1 := (mem_unionKeysUnder.mp hkU).1
          rw [hdd] at hkU hkd
          refine ⟨k, hkU, ?_⟩
          apply (mismatchB_dirEntries g1 g2 (d := dm.1) ?_).mp hkmis
          rw [hdd]
          exact hkd
      · exact Option.noConfusion hF
    · rintro ⟨⟨k0, hk0, hk0d⟩, ⟨k, hkU, hkmis⟩⟩
      have hdne : dirEntries g1 d ≠ [] := by
        intro h0
        obtain ⟨kv, hkv, hfst⟩ := List.mem_map.mp hk0
        have hmem : kv ∈ dirEntries g1 d :=
          List.mem_filter.mpr ⟨hkv, decide_eq_true (by rw [hfst]; exact hk0d)⟩
        rw [h0] at hmem
        exact absurd hmem (List.not_mem_nil kv)
      have hdm : ((d, dirEntries g1 d) : Key × TestGroup) ∈
          group_test_by_directory g1 := group_mem_of_dirEntries_ne h1 hdne
      refine ⟨⟨d, (sortKeys (unionKeysUnder g1 g2 d)).filterMap
        (blockLine g1 g2)⟩, ?_, rfl⟩
      simp only [print_grouped_by_dir]
      rw [List.mem_filterMap]
      refine ⟨(d, dirEntries g1 d), hdm, ?_⟩
      simp only [hm2]
      rw [unionKeys_dirEntries]
      rw [if_pos (List.any_eq_true.mpr ⟨k, mem_sortKeys.mpr hkU,
        (mismatchB_dirEntries g1 g2 (mem_unionKeysUnder.mp hkU).1).mpr hkmis⟩)]
      have hcg : (sortKeys (unionKeysUnder g1 g2 d)).filterMap
          (blockLine (dirEntries g1 d) (dirEntries g2 d)) =
          (sortKeys (unionKeysUnder g1 g2 d)).filterMap (blockLine g1 g2) := by
        apply filterMap_congr_mem
        intro x hx
        exact blockLine_dirEntries g1 g2
          (mem_unionKeysUnder.mp (mem_sortKeys.mp hx)).1
      rw [hcg]
  · intro b hb hdnil
    rw [(hblocks b hb).2,
      map_short_filterMap (blockLine g1 g2) (fun x ln h => blockLine_short h)]
    rw [List.pairwise_map]
    have hpw : (List.filter (fun x => (blockLine g1 g2 x).isSome)
        (sortKeys (unionKeysUnder g1 g2 b.dir))).Pairwise
        (fun x y => keyLe x y = true) :=
      List.Pairwise.sublist (List.filter_sublist _)
        (sortKeys_pairwise (unionKeysUnder g1 g2 b.dir))
    apply hpw.imp_of_mem
    intro x y hx hy hxy
    have hdx := (mem_unionKeysUnder.mp (mem_sortKeys.mp
      (List.mem_of_mem_filter hx))).1
    have hdy := (mem_unionKeysUnder.mp (mem_sortKeys.mp
      (List.mem_of_mem_filter hy))).1
    rw [← keyLe_shortOf hdx hdy hdnil]
    exact hxy

/-- C2 counterexample, against the claim as stated: with a group-2-only
directory `a` carrying a mismatched key, no block is emitted (the grouped
differ iterates only group 1's directories); and in an emitted block for the
empty directory, the short names need not be sorted (full keys `\x\y` and
`ab` sort in that order, but their short names `x\y` and `ab` do not). -/
theorem grouped_differ_counterexample :
    (¬ ∀ d : Key,
        ((∃ k ∈ keysOf cexG1, dirOf k = d) ∨ (∃ k ∈ keysOf cexG2, dirOf k = d)) →
        ((∃ b ∈ print_grouped_by_dir cexG1 cexG2, b.dir = d) ↔
          ∃ k ∈ unionKeysUnder cexG1 cexG2 d, mismatchP cexG1 cexG2 k)) ∧
    (¬ ∀ b ∈ print_grouped_by_dir cexG1 cexG2,
        (b.lines.map GroupLine.short).Pairwise (fun x y => keyLe x y = true)) := by
  constructor
  · intro h
    exact absurd (h ("a".data) (Or.inr (by decide))) (by decide)
  · intro h
    exact absurd h (by decide)

/-- Witness for `grouped_differ_amended` at concrete nodup groups. -/
theorem grouped_differ_amended_witness :
    (keysOf cexG1).Nodup ∧ (keysOf cexG2).Nodup ∧
    ((∃ b ∈ print_grouped_by_dir cexG1 cexG2, b.dir = []) ↔
      ((∃ k ∈ keysOf cexG1, dirOf k = []) ∧
        ∃ k ∈ unionKeysUnder cexG1 cexG2 [], mismatchP cexG1 cexG2 k)) :=
  ⟨by decide, by decide,
    (grouped_differ_amended cexG1 cexG2 (by decide) (by decide)).1 []⟩


/-- Witness for `uppercase_canon_entry_unreachable` at a concrete raw name. -/
theorem uppercase_canon_entry_unreachable_witness :
    canonicalizeName config0.canon ("b598031".data) ≠ canonEntry3 :=
  uppercase_canon_entry_unreachable.2.2.2.2 ("b598031".data)

end GetTests
